import Mathlib

/-!
# LSB image steganography (`encode.cpp`, `decode.cpp`)

A shallow embedding of the two programs and proofs of their protocol
properties.

Modelling conventions.

* A `std::string` holding text is a list of bytes (`Bytes`); a byte is a
  `Fin 256`.
* A `std::string` holding a bit sequence (only the characters `'0'` and `'1'`
  are ever written to it) is a list of `Bool` (`Bits`), `true` standing for
  `'1'`.  `bits[idx] - '0'` is therefore `Bool.toNat`.
* A `cv::Mat` read with `cv::IMREAD_COLOR` is a grid of `rows * cols` pixels of
  three `uchar` channels.  It is modelled by its dimensions and the list of
  its channel values in row-major, channel-minor order, so that
  `img.at<cv::Vec3b>(r, c)[ch]` is entry `(r * cols + c) * 3 + ch`.
* `for` loops over an index range are folds over `List.range`; a loop
  condition `idx < len` that only ever turns false is kept as a guard on each
  iteration.
* A run of `main` is modelled from the point where the files of the directory
  have been enumerated: its inputs are the payload, the list of images that
  `cv::imread` gives for the enumerated files (an unreadable file gives an
  empty `cv::Mat`) and the passwords typed in.
-/

namespace Stego

/-- One `char` of a `std::string`. -/
abbrev Byte := Fin 256

/-- A `std::string` holding text. -/
abbrev Bytes := List Byte

/-- A `std::string` over the characters `'0'` and `'1'`. -/
abbrev Bits := List Bool

/-- Conversion of an `int` to `char` (`static_cast<char>`). -/
def toChar (n : Nat) : Byte := ⟨n % 256, Nat.mod_lt _ (by decide)⟩

/-- The bytes of an ASCII string literal. -/
def lit (s : String) : Bytes := s.toList.map (fun c => toChar c.toNat)

/-- The password delimiter. -/
def delim : Bytes := lit ("@%#/")

/-- The terminator. -/
def hashes : Bytes := lit ("###")

/-- Decimal rendering of a non-negative `int` (`std::to_string`). -/
def toStr (i : Nat) : Bytes := lit (toString i)

/-- Three-channel 8-bit image (`cv::Mat` of `cv::Vec3b`). -/
structure Mat where
  /-- Number of pixel rows. -/
  rows : Nat
  /-- Number of pixel columns. -/
  cols : Nat
  /-- Channel values in row-major, channel-minor order. -/
  data : List Nat
deriving DecidableEq, Repr

namespace Mat

/-- The image holds exactly `rows * cols` pixels of three channels. -/
def WF (img : Mat) : Prop := img.data.length = img.rows * img.cols * 3

instance (img : Mat) : Decidable img.WF := by unfold WF; infer_instance

/-- Position of channel `ch` of pixel `(r, c)` in `data`. -/
def idx (img : Mat) (r c ch : Nat) : Nat := (r * img.cols + c) * 3 + ch

/-- Channel `ch` of `img.at<cv::Vec3b>(r, c)`. -/
def ch (img : Mat) (r c ch : Nat) : Nat := img.data.getD (img.idx r c ch) 0

/-- `cv::Mat::empty()`: no pixels (what `cv::imread` returns on failure). -/
def empty (img : Mat) : Bool := img.rows * img.cols == 0

end Mat

/-! ## encode.cpp -/

namespace Encode

/-- `toBinary(uint8_t)`: for `i = 7 .. 0`, `out[7 - i]` is bit `i` of `val`. -/
def toBinary (val : Byte) : Bits :=
  [7, 6, 5, 4, 3, 2, 1, 0].map (fun i => (val.val >>> i) &&& 1 != 0)

/-- `toBinary(const std::string&)`: the bits of every byte, in order. -/
def toBinaryStr (s : Bytes) : Bits :=
  s.foldl (fun bits c => bits ++ toBinary c) []

/-- Body of the innermost loop of `embedBits`; the state is the channel data
and `idx`. -/
def embedStep (img : Mat) (bits : Bits) (r c ch : Nat) (st : List Nat × Nat) :
    List Nat × Nat :=
  if st.2 < bits.length then
    (st.1.set (img.idx r c ch)
        ((st.1.getD (img.idx r c ch) 0 &&& 0xFE) ||| (bits.getD st.2 false).toNat),
      st.2 + 1)
  else st

/-- `embedBits`: the three nested loops, each guarded by `idx < len`. -/
def embedBits (img : Mat) (bits : Bits) : Mat :=
  let st := (List.range img.rows).foldl (fun st r =>
    if st.2 < bits.length then
      (List.range img.cols).foldl (fun st c =>
        if st.2 < bits.length then
          (List.range 3).foldl (fun st ch => embedStep img bits r c ch st) st
        else st) st
    else st) (img.data, 0)
  { img with data := st.1 }

/-- Scan-order description of the effect of `embedBits` on the channel list:
the LSB of the `k`-th channel becomes the `k`-th bit, channels past the last
bit are kept.  It is proved equal to `embedBits` in `embedBits_data`. -/
def setLsbs : List Nat → Bits → List Nat
  | p :: ps, b :: bs => ((p &&& 0xFE) ||| b.toNat) :: setLsbs ps bs
  | ps, _ => ps

/-- The slice cut at `pos` (lines 75-80): empty when `pos` is past the end. -/
def sliceAt (payload : Bytes) (chunk pos : Nat) : Bytes :=
  if pos < payload.length then
    (payload.drop pos).take (min chunk (payload.length - pos))
  else []

/-- The tag appended to slice `i` (lines 83-86). -/
def addTag (slice : Bytes) (i : Nat) (pwd : Bytes) : Bytes :=
  if i = 0 then slice ++ (delim ++ pwd ++ delim ++ toStr i ++ lit ("seq###"))
  else slice ++ (toStr i ++ lit ("seq###"))

/-- The loop of `splitAndTag` from iteration `i` with `n` iterations left and
the running offset `pos`. -/
def splitLoop (payload pwd : Bytes) (chunk : Nat) : Nat → Nat → Nat → List Bits
  | 0, _, _ => []
  | n + 1, i, pos =>
      toBinaryStr (addTag (sliceAt payload chunk pos) i pwd)
        :: splitLoop payload pwd chunk n (i + 1) (pos + chunk)

/-- The slices the loop of `splitAndTag` cuts, before tagging. -/
def sliceLoop (payload : Bytes) (chunk : Nat) : Nat → Nat → List Bytes
  | 0, _ => []
  | n + 1, pos => sliceAt payload chunk pos :: sliceLoop payload chunk n (pos + chunk)

/-- `std::ceil(static_cast<double>(size) / parts)` converted to `int`, for
`parts ≥ 1`.  Payload sizes are taken below `2^31`, the range of the `int`
the result is stored in; there the `double` quotient and its ceiling are
exact, so the value is the ceiling of `size / parts` (`chunkSize_is_ceil`). -/
def chunkSize (size parts : Nat) : Nat := (size + parts - 1) / parts

/-- `splitAndTag`: one tagged bit sequence per part. -/
def splitAndTag (payload : Bytes) (parts : Nat) (pwd : Bytes) : List Bits :=
  splitLoop payload pwd (chunkSize payload.length parts) parts 0 0

/-- The content slices of `splitAndTag`, in index order. -/
def slices (payload : Bytes) (parts : Nat) : List Bytes :=
  sliceLoop payload (chunkSize payload.length parts) parts 0

/-- How a run of the encoder ends. -/
inductive Status where
  | completed
  | noFiles
  | tooManyFiles
  | passwordMismatch
  | cannotRead (i : Nat)
  | chunkTooBig (i : Nat)
deriving DecidableEq, Repr

/-- A run of the encoder: how it ended and the images handed to
`cv::imwrite`, in order. -/
structure Run where
  /-- Final status; everything but `completed` is exit code 1. -/
  status : Status
  /-- Output images written so far. -/
  written : List Mat
deriving DecidableEq, Repr

/-- Capacity check and embedding for one image (lines 158-166): the flag tells
whether the chunk fitted; the image is the in-memory grid afterwards. -/
def embedChecked (img : Mat) (bits : Bits) : Bool × Mat :=
  let maxBits := img.rows * img.cols * 3
  if bits.length > maxBits then (false, img) else (true, embedBits img bits)

/-- The encode loop from image `i` on. -/
def encodeLoop (bitChunks : List Bits) : List Mat → Nat → List Mat → Run
  | [], _, written => ⟨.completed, written⟩
  | img :: rest, i, written =>
      if img.empty then ⟨.cannotRead i, written⟩
      else
        match embedChecked img (bitChunks.getD i []) with
        | (false, _) => ⟨.chunkTooBig i, written⟩
        | (true, out) => encodeLoop bitChunks rest (i + 1) (written ++ [out])

/-- The encoder, `main` of encode.cpp. -/
def main (payload : Bytes) (images : List Mat) (pwd pwd2 : Bytes) : Run :=
  if images.isEmpty then ⟨.noFiles, []⟩
  else if images.length > 9 then ⟨.tooManyFiles, []⟩
  else if pwd ≠ pwd2 then ⟨.passwordMismatch, []⟩
  else encodeLoop (splitAndTag payload images.length pwd) images 0 []

end Encode

/-! ## decode.cpp -/

namespace Decode

/-- `std::stoi(byte, nullptr, 2)` on a string of binary digits. -/
def stoi2 (byte : Bits) : Nat := byte.foldl (fun acc b => 2 * acc + b.toNat) 0

/-- First loop of `extractChunk`: the LSB of every channel, in scan order. -/
def lsbBits (img : Mat) : Bits :=
  (List.range img.rows).foldl (fun bits r =>
    (List.range img.cols).foldl (fun bits c =>
      (List.range 3).foldl (fun bits ch => bits ++ [img.ch r c ch &&& 1 != 0]) bits)
      bits) []

/-- `out` has at least three bytes and its last three are `"###"`. -/
def endsWithHashes (out : Bytes) : Bool :=
  decide (out.length ≥ 3) && (out.drop (out.length - 3) == hashes)

/-- Second loop of `extractChunk`, on the bits from position `i` on: while
eight bits are left, decode a byte and stop after `"###"`. -/
def decodeBytes : Bits → Bytes → Bytes
  | b0 :: b1 :: b2 :: b3 :: b4 :: b5 :: b6 :: b7 :: rest, out =>
      let out1 := out ++ [toChar (stoi2 [b0, b1, b2, b3, b4, b5, b6, b7])]
      if endsWithHashes out1 then out1 else decodeBytes rest out1
  | _, out => out

/-- `extractChunk`. -/
def extractChunk (img : Mat) : Bytes := decodeBytes (lsbBits img) []

/-- `std::string::find(needle, pos)` on the text from `pos` on, `i` being the
index of its first byte; `none` is `npos`. -/
def findAt (needle : Bytes) : Bytes → Nat → Option Nat
  | [], i => if needle = [] then some i else none
  | c :: cs, i => if needle <+: c :: cs then some i else findAt needle cs (i + 1)

/-- `s.find(needle, pos)`. -/
def find (s needle : Bytes) (pos : Nat) : Option Nat :=
  if s.length < pos then none else findAt needle (s.drop pos) pos

/-- `s.substr(pos, n)` for `pos ≤ s.size()`. -/
def substr (s : Bytes) (pos n : Nat) : Bytes := (s.drop pos).take n

/-- A `char` promoted to `int` (`char` is signed). -/
def charToInt (b : Byte) : Int := if b.val < 128 then b.val else (b.val : Int) - 256

/-- What lines 97-124 read out of an extracted stream. -/
inductive Parsed where
  /-- Fewer than 7 bytes: `continue`. -/
  | skip
  /-- Sequence 0 without two delimiters. -/
  | malformed
  /-- Sequence number, password found inside (sequence 0 only), content. -/
  | chunk (seq : Int) (pwdInside : Option Bytes) (content : Bytes)
deriving DecidableEq, Repr

/-- Tag parsing of the decoder (lines 97-112, 119, 124). -/
def parseTag (chunk : Bytes) : Parsed :=
  if chunk.length < 7 then .skip
  else
    let seqChar := chunk.getD (chunk.length - 7) 0
    let seq : Int := charToInt seqChar - 48
    if seq = 0 then
      let withPwd := substr chunk 0 (chunk.length - 7)
      let first := find withPwd delim 0
      -- `first + 4` wraps around to 3 when `first` is `npos`
      let second := find withPwd delim (match first with | some f => f + 4 | none => 3)
      match first, second with
      | some f, some s => .chunk seq (some (substr withPwd (f + 4) (s - (f + 4)))) (substr withPwd 0 f)
      | _, _ => .malformed
    else .chunk seq none (substr chunk 0 (chunk.length - 7))

/-- How a run of the decoder ends without output. -/
inductive Error where
  | noFiles
  | cannotRead
  | malformedHeader
  | passwordInvalid
  /-- `pieces[seq]` with `seq` outside `0 .. pieces.size() - 1`: undefined
  behaviour of `std::vector::operator[]`. -/
  | storeOutOfRange
deriving DecidableEq, Repr

/-- Outcome of a decoder step or run. -/
inductive Outcome (α : Type) where
  | ok (a : α)
  | fail (e : Error)
deriving DecidableEq, Repr

/-- The assignment `pieces[seq] = content`. -/
def store (pieces : List Bytes) (seq : Int) (content : Bytes) : Outcome (List Bytes) :=
  if 0 ≤ seq ∧ seq < pieces.length then .ok (pieces.set seq.toNat content)
  else .fail .storeOutOfRange

/-- Lines 97-125 for one extracted stream: parse, check the password of
sequence 0, store. -/
def processChunk (pwd : Bytes) (pieces : List Bytes) (chunk : Bytes) :
    Outcome (List Bytes) :=
  match parseTag chunk with
  | .skip => .ok pieces
  | .malformed => .fail .malformedHeader
  | .chunk seq (some pwdInside) content =>
      if pwdInside ≠ pwd then .fail .passwordInvalid else store pieces seq content
  | .chunk seq none content => store pieces seq content

/-- The loop over the enumerated images. -/
def decodeLoop (pwd : Bytes) : List Mat → List Bytes → Outcome (List Bytes)
  | [], pieces => .ok pieces
  | img :: rest, pieces =>
      if img.empty then .fail .cannotRead
      else
        match processChunk pwd pieces (extractChunk img) with
        | .ok pieces1 => decodeLoop pwd rest pieces1
        | .fail e => .fail e

/-- The decoder, `main` of decode.cpp: the text written to the output file,
or the error the run stops with. -/
def main (imgs : List Mat) (pwd : Bytes) : Outcome Bytes :=
  if imgs.isEmpty then .fail .noFiles
  else
    match decodeLoop pwd imgs (List.replicate imgs.length []) with
    | .ok pieces => .ok (pieces.foldl (fun result s => result ++ s) [])
    | .fail e => .fail e

end Decode

/-- The extracted stream of image `m` is the chunk `sl k` tagged with index
`k < N` (and password `pwd` when `k = 0`). -/
def Carries (pwd : Bytes) (sl : Nat → Bytes) (N : Nat) (m : Mat) (k : Nat) : Prop :=
  k < N ∧ k ≤ 9 ∧ Decode.extractChunk m = Encode.addTag (sl k) k pwd

/-! ## The wire format as the specification words it -/

namespace Spec

/-- `ceil(a / b)` for natural numbers. -/
def ceilDiv (a b : Nat) : Nat := (a + b - 1) / b

/-- The range `P[lo : hi]`. -/
def range (P : Bytes) (lo hi : Nat) : Bytes := (P.take hi).drop lo

/-- The `i`-th chunk of `splitPayload(P, N)`: with `size = ceil(len(P) / N)`,
`P[i*size : min((i+1)*size, len(P))]` when `i*size < len(P)`, else empty. -/
def slice (P : Bytes) (N i : Nat) : Bytes :=
  let size := ceilDiv P.length N
  if i * size < P.length then range P (i * size) (min ((i + 1) * size) P.length) else []

/-- The single decimal digit of `i`. -/
def digit (i : Nat) : Byte := toChar (48 + i)

/-- The tag of chunk `i`: password marker and sequence marker for chunk 0, the
sequence marker alone for the others. -/
def tag (i : Nat) (pwd : Bytes) : Bytes :=
  if i = 0 then delim ++ pwd ++ delim ++ lit ("0seq###") else digit i :: lit ("seq###")

/-- Tagged chunk `i`: content first, tag last. -/
def taggedChunk (P : Bytes) (N : Nat) (pwd : Bytes) (i : Nat) : Bytes :=
  slice P N i ++ tag i pwd

/-- MSB-first bit expansion of a byte string. -/
def bitsOf (s : Bytes) : Bits :=
  s.flatMap (fun c => (List.range 8).map (fun k => c.val.testBit (7 - k)))

end Spec

/-- The preconditions of a correct encoder run: payload `P` and password
`pwd` contain neither `"###"` nor `"@%#/"`, there are between 1 and 9 grids,
every grid holds `rows * cols` three-channel pixels, and grid `i` has at
least `8 * len(tagged chunk i)` channels. -/
def Encodable (P pwd : Bytes) (grids : List Mat) : Prop :=
  (¬ hashes <:+: P ∧ ¬ delim <:+: P) ∧ (¬ hashes <:+: pwd ∧ ¬ delim <:+: pwd) ∧
  (1 ≤ grids.length ∧ grids.length ≤ 9) ∧ (∀ g ∈ grids, g.WF) ∧
  ∀ i (h : i < grids.length),
    8 * (Spec.taggedChunk P grids.length pwd i).length ≤ grids[i].rows * grids[i].cols * 3

instance (P pwd : Bytes) (grids : List Mat) : Decidable (Encodable P pwd grids) := by
  unfold Encodable; infer_instance

/-! ## Concrete inputs used to instantiate the theorems -/

/-- The payload of the worked example. -/
def exPayload : Bytes := lit ("HELLO WORLD")

/-- The password of the worked example. -/
def exPwd : Bytes := lit ("x")

/-- An 8 x 8 image with every channel 255. -/
def exGridA : Mat := ⟨8, 8, List.replicate 192 255⟩

/-- A 6 x 6 image with channel values 0, 1, 2, ... -/
def exGridB : Mat := ⟨6, 6, List.range 108⟩

/-- Two images, large enough for the two tagged chunks of the example. -/
def exGrids : List Mat := [exGridA, exGridB]

/-- What `cv::imread` gives for a file it cannot read. -/
def unreadable : Mat := ⟨0, 0, []⟩

/-- One pixel. -/
def exPixel : Mat := ⟨1, 1, [254, 1, 7]⟩

/-- A 3 x 7 image whose LSBs spell `"5seq###"`: what the encoder writes as
image 5 of a set of six or more when slice 5 is empty. -/
def exStray : Mat := Encode.embedBits ⟨3, 7, List.replicate 63 0⟩ (Encode.toBinaryStr (lit ("5seq###")))

/-- A 3 x 8 image whose LSBs spell `"XYAseq###"`: the byte in the place of
the sequence digit is the letter `A`. -/
def exLetter : Mat := Encode.embedBits ⟨3, 8, List.replicate 72 0⟩ (Encode.toBinaryStr (lit ("XYAseq###")))

/-! ## The decoder, seen on sequence numbers and whole bytes -/

namespace Decode

/-- The sequence number read at lines 99-100: `chunk[chunk.size() - 7] - '0'`. -/
def seqIndex (chunk : Bytes) : Int := charToInt (chunk.getD (chunk.length - 7) 0) - 48

/-- Second loop of `extractChunk` seen on whole bytes: append the bytes of
`B` to `out` one by one and stop after the first that makes `out` end with
`"###"`.  It is proved equal to `decodeBytes` in `decodeBytes_eq_cutLoop`. -/
def cutLoop : Bytes → Bytes → Bytes
  | [], out => out
  | b :: r, out =>
      if endsWithHashes (out ++ [b]) then out ++ [b] else cutLoop r (out ++ [b])

end Decode

/-! ## The extracted stream and the header, as the specification words them -/

namespace Spec

/-- The channels of a grid in row-major, channel-minor scan order. -/
def scan (img : Mat) : List Nat :=
  (List.range img.rows).flatMap (fun r =>
    (List.range img.cols).flatMap (fun c =>
      (List.range 3).map (fun ch => img.ch r c ch)))

/-- The least-significant bit of a channel value. -/
def lsb (p : Nat) : Bool := p % 2 = 1

/-- Bits grouped MSB-first into complete bytes; trailing bits that do not
fill a byte are dropped. -/
def groupBytes : Bits → Bytes
  | b0 :: b1 :: b2 :: b3 :: b4 :: b5 :: b6 :: b7 :: rest =>
      toChar (128 * b0.toNat + 64 * b1.toNat + 32 * b2.toNat + 16 * b3.toNat
        + 8 * b4.toNat + 4 * b5.toNat + 2 * b6.toNat + b7.toNat) :: groupBytes rest
  | _ => []

/-- The bytes held by the channel LSBs of a grid: the LSBs in scan order,
grouped MSB-first into complete bytes. -/
def streamBytes (img : Mat) : Bytes := groupBytes ((scan img).map lsb)

/-- `R` is the shortest prefix of `t` that ends with `"###"`: the prefix of
`t` ending at the first occurrence of `"###"`. -/
def IsFirstStop (t R : Bytes) : Prop :=
  R <+: t ∧ hashes <:+ R ∧ ∀ R' : Bytes, R' <+: t → hashes <:+ R' → R.length ≤ R'.length

/-- The pattern `x` occurs in `R` at position `p`. -/
def OccursAt (x R : Bytes) (p : Nat) : Prop := x <+: R.drop p

instance (x R : Bytes) (p : Nat) : Decidable (OccursAt x R p) := by
  unfold OccursAt; infer_instance

/-- `R` contains two non-overlapping occurrences of the delimiter `"@%#/"`. -/
def TwoDelims (R : Bytes) : Prop :=
  ∃ p1 p2, OccursAt delim R p1 ∧ OccursAt delim R p2 ∧ p1 + 4 ≤ p2

end Spec

/-! ## More concrete inputs -/

/-- Ten bits, `1010101010`. -/
def exBits : Bits := [true, false, true, false, true, false, true, false, true, false]

/-- A 3 x 8 image whose LSBs spell `"A1seq###"`. -/
def exDupA : Mat := Encode.embedBits ⟨3, 8, List.replicate 72 0⟩ (Encode.toBinaryStr (lit ("A1seq###")))

/-- A 3 x 8 image whose LSBs spell `"B1seq###"`: the same sequence index 1,
another content. -/
def exDupB : Mat := Encode.embedBits ⟨3, 8, List.replicate 72 0⟩ (Encode.toBinaryStr (lit ("B1seq###")))

/-- Two images without sequence index 0: one with the stream
`"WORLD1seq###"`, and a one-pixel image, whose stream is empty. -/
def exNoZero : List Mat :=
  [Encode.embedBits exGridB (Encode.toBinaryStr (lit ("WORLD1seq###"))), exPixel]

/-! ## Bit codec -/

theorem toChar_val (b : Byte) : toChar b.val = b :=
  Fin.ext (Nat.mod_eq_of_lt b.isLt)

theorem toBinary_length (b : Byte) : (Encode.toBinary b).length = 8 := rfl

set_option maxRecDepth 100000 in
theorem stoi2_toBinary (b : Byte) : Decode.stoi2 (Encode.toBinary b) = b.val := by
  revert b; decide

theorem toBinaryStr_acc (s : Bytes) (acc : Bits) :
    s.foldl (fun bits c => bits ++ Encode.toBinary c) acc = acc ++ Encode.toBinaryStr s := by
  induction s generalizing acc with
  | nil => simp [Encode.toBinaryStr]
  | cons c s ih =>
    simp only [Encode.toBinaryStr, List.foldl_cons, List.nil_append]
    rw [ih, ih (Encode.toBinary c), List.append_assoc]

theorem toBinaryStr_nil : Encode.toBinaryStr [] = [] := rfl

theorem toBinaryStr_cons (c : Byte) (s : Bytes) :
    Encode.toBinaryStr (c :: s) = Encode.toBinary c ++ Encode.toBinaryStr s := by
  simp only [Encode.toBinaryStr, List.foldl_cons, List.nil_append]
  exact toBinaryStr_acc s _

theorem toBinaryStr_length (s : Bytes) : (Encode.toBinaryStr s).length = 8 * s.length := by
  induction s with
  | nil => rfl
  | cons c s ih =>
    rw [toBinaryStr_cons, List.length_append, ih, toBinary_length, List.length_cons]; omega

theorem decodeBytes_toBinary (b : Byte) (rest : Bits) (out : Bytes) :
    Decode.decodeBytes (Encode.toBinary b ++ rest) out =
      if Decode.endsWithHashes (out ++ [b]) then out ++ [b]
      else Decode.decodeBytes rest (out ++ [b]) := by
  have h : Encode.toBinary b ++ rest =
      ((b.val >>> 7) &&& 1 != 0) :: ((b.val >>> 6) &&& 1 != 0) :: ((b.val >>> 5) &&& 1 != 0)
        :: ((b.val >>> 4) &&& 1 != 0) :: ((b.val >>> 3) &&& 1 != 0) :: ((b.val >>> 2) &&& 1 != 0)
        :: ((b.val >>> 1) &&& 1 != 0) :: ((b.val >>> 0) &&& 1 != 0) :: rest := rfl
  rw [h, Decode.decodeBytes]
  have h2 : Decode.stoi2 [((b.val >>> 7) &&& 1 != 0), ((b.val >>> 6) &&& 1 != 0),
      ((b.val >>> 5) &&& 1 != 0), ((b.val >>> 4) &&& 1 != 0), ((b.val >>> 3) &&& 1 != 0),
      ((b.val >>> 2) &&& 1 != 0), ((b.val >>> 1) &&& 1 != 0), ((b.val >>> 0) &&& 1 != 0)]
      = b.val := stoi2_toBinary b
  simp only [h2, toChar_val]

theorem endsWithHashes_iff (out : Bytes) : Decode.endsWithHashes out = true ↔ hashes <:+ out := by
  have hl : hashes.length = 3 := rfl
  simp only [Decode.endsWithHashes, Bool.and_eq_true, decide_eq_true_eq, beq_iff_eq]
  constructor
  · rintro ⟨_, h⟩
    rw [← h]; exact List.drop_suffix _ _
  · intro h
    have := h.length_le
    refine ⟨by omega, ?_⟩
    have h2 := List.suffix_iff_eq_drop.mp h
    rw [hl] at h2; exact h2.symm

/-! ## Extraction stops at the first terminator -/

/-- Decoding the bits of `rest` followed by anything: when the text decoded so
far together with `rest` ends with the terminator and no shorter prefix that
is longer than `out` does, the loop returns exactly that text. -/
theorem decodeBytes_stop (rest : Bytes) (junk : Bits) (out : Bytes) (hne : rest ≠ [])
    (hend : hashes <:+ out ++ rest)
    (hfirst : ∀ k, out.length < k → k < (out ++ rest).length →
      ¬ hashes <:+ (out ++ rest).take k) :
    Decode.decodeBytes (Encode.toBinaryStr rest ++ junk) out = out ++ rest := by
  induction rest generalizing out with
  | nil => exact absurd rfl hne
  | cons b r ih =>
    rw [toBinaryStr_cons, List.append_assoc, decodeBytes_toBinary]
    cases r with
    | nil =>
      rw [if_pos ((endsWithHashes_iff _).mpr hend)]
    | cons b2 r2 =>
      have hno : ¬ hashes <:+ out ++ [b] := by
        have h := hfirst (out.length + 1) (by omega) (by simp)
        rwa [show out ++ b :: b2 :: r2 = (out ++ [b]) ++ (b2 :: r2) by simp,
          List.take_left' (by simp)] at h
      rw [if_neg (by rw [endsWithHashes_iff]; exact hno)]
      have e : out ++ [b] ++ b2 :: r2 = out ++ b :: b2 :: r2 := by simp
      rw [ih (out ++ [b]) (by simp) (by rw [e]; exact hend)
        (by
          intro k hk1 hk2
          rw [e] at hk2 ⊢
          exact hfirst k (by simp at hk1; omega) hk2), e]

/-- A text that ends with the terminator and holds it nowhere earlier is read
back whole from its bits, whatever bits follow. -/
theorem decodeBytes_tagged (t : Bytes) (junk : Bits) (hend : hashes <:+ t)
    (hfirst : ¬ hashes <:+: t.dropLast) :
    Decode.decodeBytes (Encode.toBinaryStr t ++ junk) [] = t := by
  have hne : t ≠ [] := by
    rintro rfl
    exact absurd hend (by decide)
  have := decodeBytes_stop t junk [] hne (by simpa using hend) (by
    intro k _ hk hs
    apply hfirst
    simp only [List.nil_append] at hk hs
    have hpre : t.take k <+: t.dropLast := by
      rw [List.dropLast_eq_take]
      exact (List.prefix_take_iff).mpr ⟨List.take_prefix _ _, by simp; omega⟩
    exact (hs.isInfix).trans hpre.isInfix)
  simpa using this

/-! ## Occurrences of a pattern in a concatenation -/

/-- An occurrence of `x` in `a ++ c :: b` cannot cover `c` when `c` is not in
`x`, so it lies in `a` or in `b`. -/
theorem infix_of_not_mem {α : Type} (x a b : List α) (c : α) (hc : c ∉ x)
    (h : x <:+: a ++ c :: b) : x <:+: a ∨ x <:+: b := by
  obtain ⟨s, t, hst⟩ := h
  rcases List.append_eq_append_iff.mp hst with ⟨a', ha, _⟩ | ⟨c', hc', hcb⟩
  · -- `a = s ++ x ++ a'`
    exact Or.inl ⟨s, a', ha.symm⟩
  · cases c' with
    | nil => exact Or.inl ⟨s, [], by simpa using hc'⟩
    | cons d c'' =>
      simp only [List.cons_append, List.cons.injEq] at hcb
      obtain ⟨rfl, hb⟩ := hcb
      rcases List.append_eq_append_iff.mp hc' with ⟨a'', _, hx⟩ | ⟨d', _, hd⟩
      · exact absurd (by rw [hx]; simp) hc
      · cases d' with
        | nil => exact absurd (by rw [← List.nil_append x, ← hd]; simp) hc
        | cons e d'' =>
          simp only [List.cons_append, List.cons.injEq] at hd
          exact Or.inr ⟨d'', t, by rw [hb, hd.2]⟩

/-- An occurrence of a pattern ending with `e` in `a ++ w` lies in `a` when
`e` is not in `w`. -/
theorem infix_left_of_last {α : Type} (x a w : List α) (e : α) (he : e ∉ w)
    (h : x ++ [e] <:+: a ++ w) : x ++ [e] <:+: a := by
  obtain ⟨s, t, hst⟩ := h
  rcases List.append_eq_append_iff.mp hst with ⟨a', ha, _⟩ | ⟨c', hc', hw⟩
  · exact ⟨s, a', ha.symm⟩
  · rcases List.eq_nil_or_concat c' with rfl | ⟨c'', z, rfl⟩
    · exact ⟨s, [], by simpa using hc'⟩
    · have h1 : (s ++ x) ++ [e] = (a ++ c'') ++ [z] := by
        simpa [List.append_assoc] using hc'
      have h2 := List.append_inj_right' h1 rfl
      simp only [List.cons.injEq, and_true] at h2
      exact absurd (by rw [hw, h2]; simp) he

/-! ## `std::string::find` -/

/-- The search finds the occurrence right after `a` when the pattern does not
start anywhere in `a`. -/
theorem findAt_append (x a r : Bytes) (i : Nat) (hx : x ≠ [])
    (hno : ¬ x <:+: a ++ x.dropLast) :
    Decode.findAt x (a ++ x ++ r) i = some (i + a.length) := by
  induction a generalizing i with
  | nil =>
    cases x with
    | nil => exact absurd rfl hx
    | cons c cs =>
      simp only [List.nil_append, List.cons_append, Decode.findAt, List.length_nil, Nat.add_zero]
      rw [if_pos]
      exact List.prefix_append (c :: cs) r
  | cons c a ih =>
    simp only [List.cons_append, Decode.findAt]
    have hnp : ¬ x <+: c :: (a ++ x ++ r) := by
      intro hp
      apply hno
      have hsplit : c :: (a ++ x ++ r) = (c :: a ++ x.dropLast) ++ (x.drop (x.length - 1) ++ r) := by
        have : x = x.dropLast ++ x.drop (x.length - 1) := by
          rw [List.dropLast_eq_take]; exact (List.take_append_drop _ _).symm
        conv_lhs => rw [this]
        simp
      rw [hsplit] at hp
      have hlen : x.length ≤ (c :: a ++ x.dropLast).length := by
        simp; omega
      exact (List.prefix_of_prefix_length_le hp (List.prefix_append _ _) hlen).isInfix
    have e : c :: (a ++ x ++ r) = c :: ((a.append x).append r) := rfl
    rw [← e, if_neg hnp]
    have e2 : (a.append x).append r = a ++ x ++ r := rfl
    rw [e2, ih (i + 1) (fun h => hno (h.trans (List.suffix_cons c _).isInfix))]
    simp; omega

/-! ## Tag construction and tag parsing -/

theorem toStr_digit (i : Nat) (hi : i ≤ 9) : toStr i = [toChar (48 + i)] := by
  interval_cases i <;> decide

theorem delim_eq : delim = [64, 37, 35] ++ [47] := by decide

theorem getD_append_at (a : Bytes) (c : Byte) (tl : Bytes) :
    (a ++ c :: tl).getD a.length 0 = c := by
  induction a with
  | nil => rfl
  | cons x a ih => simpa [List.getD_eq_getElem?_getD] using ih

theorem substr_zero_append (a b : Bytes) : Decode.substr (a ++ b) 0 a.length = a := by
  simp [Decode.substr]

/-- Sequence digit and content of a chunk tagged with a non-zero index. -/
theorem parseTag_later (content : Bytes) (i : Nat) (h1 : 1 ≤ i) (h9 : i ≤ 9) :
    Decode.parseTag (content ++ (toStr i ++ lit ("seq###"))) = .chunk i none content := by
  have htag : toStr i ++ lit ("seq###") = toChar (48 + i) :: lit ("seq###") := by
    rw [toStr_digit i h9]; rfl
  have hlen : (content ++ (toStr i ++ lit ("seq###"))).length = content.length + 7 := by
    rw [htag]; simp [show (lit ("seq###")).length = 6 from rfl]
  have hseq : Decode.charToInt (toChar (48 + i)) - 48 = (i : Int) := by
    interval_cases i <;> decide
  unfold Decode.parseTag
  rw [hlen, if_neg (by omega), Nat.add_sub_cancel]
  simp only []
  rw [htag, getD_append_at, hseq, if_neg (by omega), substr_zero_append]

theorem find_zero (s x : Bytes) : Decode.find s x 0 = Decode.findAt x s 0 := by
  simp [Decode.find]

/-- Sequence digit, password and content of a chunk tagged with index 0. -/
theorem parseTag_first (content pwd : Bytes) (hc : ¬ delim <:+: content)
    (hp : ¬ delim <:+: pwd) :
    Decode.parseTag (content ++ (delim ++ pwd ++ delim ++ toStr 0 ++ lit ("seq###")))
      = .chunk 0 (some pwd) content := by
  have hlast : ∀ a : Bytes, ¬ delim <:+: a → ¬ delim <:+: a ++ delim.dropLast := by
    intro a ha h
    apply ha
    rw [delim_eq] at h ⊢
    exact infix_left_of_last _ _ _ _ (by decide) h
  have hdn : delim ≠ [] := by decide
  have hdl : delim.length = 4 := rfl
  have htag : content ++ (delim ++ pwd ++ delim ++ toStr 0 ++ lit ("seq###"))
      = (content ++ delim ++ pwd ++ delim) ++ (48 : Byte) :: lit ("seq###") := by
    simp [show toStr 0 = [(48 : Byte)] from rfl]
  have hlen : ((content ++ delim ++ pwd ++ delim) ++ (48 : Byte) :: lit ("seq###")).length
      = (content ++ delim ++ pwd ++ delim).length + 7 := by
    simp [show (lit ("seq###")).length = 6 from rfl]
    omega
  have hfirst : Decode.find (content ++ delim ++ pwd ++ delim) delim 0 = some content.length := by
    rw [find_zero, List.append_assoc (content ++ delim), findAt_append delim content _ 0 hdn (hlast _ hc)]
    simp
  have hsecond : Decode.find (content ++ delim ++ pwd ++ delim) delim (content.length + 4)
      = some (content.length + 4 + pwd.length) := by
    unfold Decode.find
    rw [if_neg (by simp [hdl])]
    have hd : (content ++ delim ++ pwd ++ delim).drop (content.length + 4) = pwd ++ delim ++ [] := by
      rw [List.append_assoc (content ++ delim), List.drop_left' (by simp [hdl])]
      simp
    rw [hd, findAt_append delim pwd [] _ hdn (hlast _ hp)]
  rw [htag]
  unfold Decode.parseTag
  rw [hlen, if_neg (by omega), Nat.add_sub_cancel]
  simp only []
  rw [getD_append_at, if_pos (by decide), substr_zero_append, hfirst]
  simp only []
  rw [hsecond]
  simp only []
  congr 1
  · congr 1
    unfold Decode.substr
    rw [List.append_assoc (content ++ delim), List.drop_left' (by simp [hdl])]
    simp
  · rw [List.append_assoc, List.append_assoc]
    exact substr_zero_append _ _

/-! ## The terminator occurs in a tagged chunk only at its end -/

theorem addTag_later_eq (content : Bytes) (i : Nat) (h1 : 1 ≤ i) (h9 : i ≤ 9) (pwd : Bytes) :
    Encode.addTag content i pwd = content ++ (toStr i ++ lit ("seq###")) := by
  unfold Encode.addTag
  rw [if_neg (by omega)]

theorem addTag_zero_eq (content pwd : Bytes) :
    Encode.addTag content 0 pwd
      = content ++ (delim ++ pwd ++ delim ++ toStr 0 ++ lit ("seq###")) := by
  unfold Encode.addTag
  rw [if_pos rfl]

theorem addTag_ends (content : Bytes) (i : Nat) (pwd : Bytes) :
    hashes <:+ Encode.addTag content i pwd := by
  have h : hashes <:+ lit ("seq###") := by decide
  unfold Encode.addTag
  split
  · exact h.trans ((List.suffix_append _ _).trans (List.suffix_append _ _))
  · exact h.trans ((List.suffix_append _ _).trans (List.suffix_append _ _))

theorem addTag_later_first (content : Bytes) (i : Nat) (h1 : 1 ≤ i) (h9 : i ≤ 9) (pwd : Bytes)
    (hc : ¬ hashes <:+: content) :
    ¬ hashes <:+: (Encode.addTag content i pwd).dropLast := by
  rw [addTag_later_eq content i h1 h9, toStr_digit i h9]
  have e : ([toChar (48 + i)] ++ lit ("seq###")).dropLast
      = toChar (48 + i) :: [115, 101, 113, 35, 35] := by
    interval_cases i <;> decide
  rw [List.dropLast_append_of_ne_nil _ (by simp), e]
  intro h
  have hd : toChar (48 + i) ∉ hashes := by
    interval_cases i <;> decide
  rcases infix_of_not_mem _ _ _ _ hd h with h | h
  · exact hc h
  · exact absurd h (by decide)

theorem addTag_zero_first (content pwd : Bytes) (hc : ¬ hashes <:+: content)
    (hp : ¬ hashes <:+: pwd) :
    ¬ hashes <:+: (Encode.addTag content 0 pwd).dropLast := by
  rw [addTag_zero_eq]
  have e : (delim ++ pwd ++ delim ++ toStr 0 ++ lit ("seq###")).dropLast
      = (64 : Byte) :: (([37, 35] ++ (47 : Byte) :: pwd)
          ++ (64 : Byte) :: [37, 35, 47, 48, 115, 101, 113, 35, 35]) := by
    have e1 : delim ++ pwd ++ delim ++ toStr 0 ++ lit ("seq###")
        = ((64 : Byte) :: [37, 35, 47] ++ pwd) ++ [64, 37, 35, 47, 48, 115, 101, 113, 35, 35, 35] := by
      simp [show delim = [(64 : Byte), 37, 35, 47] from rfl, show toStr 0 = [(48 : Byte)] from rfl,
        show lit ("seq###") = [(115 : Byte), 101, 113, 35, 35, 35] from rfl]
    rw [e1, List.dropLast_append_of_ne_nil _ (by simp)]
    simp
  rw [List.dropLast_append_of_ne_nil _
    (List.append_ne_nil_of_right_ne_nil _ (by decide)), e]
  intro h
  rcases infix_of_not_mem _ _ _ _ (by decide) h with h | h
  · exact hc h
  · rcases infix_of_not_mem _ _ _ _ (by decide) h with h | h
    · rcases infix_of_not_mem _ _ _ _ (by decide) h with h | h
      · exact absurd h (by decide)
      · exact hp h
    · exact absurd h (by decide)

/-- In every tagged chunk of an encoder run the terminator first occurs at
the very end. -/
theorem addTag_first (content : Bytes) (i : Nat) (h9 : i ≤ 9) (pwd : Bytes)
    (hc : ¬ hashes <:+: content) (hp : ¬ hashes <:+: pwd) :
    ¬ hashes <:+: (Encode.addTag content i pwd).dropLast := by
  rcases Nat.eq_zero_or_pos i with rfl | h
  · exact addTag_zero_first content pwd hc hp
  · exact addTag_later_first content i h h9 pwd hc

/-! ## Nested index loops as one loop over the scan order -/

theorem foldl_range_mul {σ : Type} (g : σ → Nat → σ) (a b : Nat) (s : σ) :
    (List.range a).foldl (fun s i => (List.range b).foldl (fun s j => g s (i * b + j)) s) s
      = (List.range (a * b)).foldl g s := by
  induction a with
  | zero => simp
  | succ a ih =>
    rw [List.range_succ, List.foldl_append, ih, Nat.succ_mul, List.range_add,
      List.foldl_append, List.foldl_map]
    simp

/-- The three loops over `r`, `c`, `ch` visit the channel positions
`0 .. rows * cols * 3 - 1` in increasing order. -/
theorem foldl_scan {σ : Type} (img : Mat) (g : σ → Nat → σ) (s : σ) :
    (List.range img.rows).foldl (fun s r =>
      (List.range img.cols).foldl (fun s c =>
        (List.range 3).foldl (fun s ch => g s (img.idx r c ch)) s) s) s
      = (List.range (img.rows * img.cols * 3)).foldl g s := by
  have inner : ∀ r (s : σ),
      (List.range img.cols).foldl (fun s c =>
        (List.range 3).foldl (fun s ch => g s (img.idx r c ch)) s) s
      = (List.range (img.cols * 3)).foldl (fun s k => g s (r * (img.cols * 3) + k)) s := by
    intro r s
    rw [← foldl_range_mul (fun s k => g s (r * (img.cols * 3) + k)) img.cols 3 s]
    congr 1
    funext s c
    congr 1
    funext s ch
    congr 1
    unfold Mat.idx
    ring
  simp only [inner]
  rw [foldl_range_mul g img.rows (img.cols * 3) s, Nat.mul_assoc]

theorem foldl_snoc_map {α β : Type} (h : α → β) (l : List α) (acc : List β) :
    l.foldl (fun acc k => acc ++ [h k]) acc = acc ++ l.map h := by
  induction l generalizing acc with
  | nil => simp
  | cons x l ih => simp [ih]

theorem range_map_getD (l : List Nat) (h : Nat → Bool) :
    (List.range l.length).map (fun k => h (l.getD k 0)) = l.map h := by
  apply List.ext_getElem
  · simp
  · intro n h1 h2
    simp at h1
    simp [List.getD_eq_getElem?_getD, List.getElem?_eq_getElem h1]

/-- The bit string read by `extractChunk` is the LSB of every channel. -/
theorem lsbBits_eq (img : Mat) (hwf : img.WF) :
    Decode.lsbBits img = img.data.map (fun p => p &&& 1 != 0) := by
  unfold Decode.lsbBits
  have := foldl_scan img (fun (bits : Bits) k => bits ++ [img.data.getD k 0 &&& 1 != 0]) []
  unfold Mat.ch
  rw [this, foldl_snoc_map (fun k => img.data.getD k 0 &&& 1 != 0), ← hwf, List.nil_append]
  exact range_map_getD img.data (fun p => p &&& 1 != 0)

/-! ## `embedBits` in scan order -/

/-- One guarded write of `embedBits` at channel position `k`. -/
theorem embedStep_idx (img : Mat) (bits : Bits) (r c ch : Nat) (st : List Nat × Nat) :
    Encode.embedStep img bits r c ch st =
      if st.2 < bits.length then
        (st.1.set (img.idx r c ch)
          ((st.1.getD (img.idx r c ch) 0 &&& 0xFE) ||| (bits.getD st.2 false).toNat), st.2 + 1)
      else st := rfl

theorem foldl_done {α : Type} (len : Nat) (G : List Nat × Nat → α → List Nat × Nat)
    (hG : ∀ st x, ¬ st.2 < len → G st x = st) (l : List α) (st : List Nat × Nat)
    (h : ¬ st.2 < len) : l.foldl G st = st := by
  induction l with
  | nil => rfl
  | cons x l ih => rw [List.foldl_cons, hG st x h, ih]

theorem setLsbs_nil (ps : List Nat) : Encode.setLsbs ps [] = ps := by
  cases ps <;> rfl

theorem setLsbs_length (ps : List Nat) (bs : Bits) : (Encode.setLsbs ps bs).length = ps.length := by
  induction ps generalizing bs with
  | nil => cases bs <;> rfl
  | cons p ps ih =>
    cases bs with
    | nil => rfl
    | cons b bs => simp [Encode.setLsbs, ih]

/-- Writing bit `n` after the first `n` bits have been written. -/
theorem setLsbs_step (data : List Nat) (bits : Bits) (n : Nat) (hn : n < bits.length) :
    (Encode.setLsbs data (bits.take n)).set n
        (((Encode.setLsbs data (bits.take n)).getD n 0 &&& 0xFE) ||| (bits.getD n false).toNat)
      = Encode.setLsbs data (bits.take (n + 1)) := by
  induction n generalizing data bits with
  | zero =>
    cases bits with
    | nil => simp at hn
    | cons b bs =>
      cases data with
      | nil => rfl
      | cons p ps => simp [Encode.setLsbs, setLsbs_nil]
  | succ n ih =>
    cases bits with
    | nil => simp at hn
    | cons b bs =>
      cases data with
      | nil => rfl
      | cons p ps =>
        have := ih ps bs (by simpa using hn)
        simpa [Encode.setLsbs] using this

/-- The state of `embedBits` after the first `n` channel positions. -/
theorem embed_flat (data : List Nat) (bits : Bits) (n : Nat) :
    (List.range n).foldl (fun (st : List Nat × Nat) k =>
        if st.2 < bits.length then
          (st.1.set k ((st.1.getD k 0 &&& 0xFE) ||| (bits.getD st.2 false).toNat), st.2 + 1)
        else st) (data, 0)
      = (Encode.setLsbs data (bits.take n), min n bits.length) := by
  induction n with
  | zero => simp [setLsbs_nil]
  | succ n ih =>
    rw [List.range_succ, List.foldl_append, ih]
    simp only [List.foldl_cons, List.foldl_nil]
    by_cases h : n < bits.length
    · rw [if_pos (by simp; omega)]
      have hm : min n bits.length = n := by omega
      rw [hm, setLsbs_step data bits n h]
      congr 1
      omega
    · rw [if_neg (by simp; omega)]
      have h1 : bits.take (n + 1) = bits.take n := by
        rw [List.take_of_length_le (by omega), List.take_of_length_le (by omega)]
      rw [h1]
      congr 1
      omega

/-- The channel list after `embedBits`, in scan order. -/
theorem embedBits_data (img : Mat) (bits : Bits) (hcap : bits.length ≤ img.rows * img.cols * 3) :
    (Encode.embedBits img bits).data = Encode.setLsbs img.data bits := by
  unfold Encode.embedBits
  simp only []
  have hstep : ∀ (r c : Nat) (st : List Nat × Nat) (ch : Nat), ¬ st.2 < bits.length →
      Encode.embedStep img bits r c ch st = st := by
    intro r c st ch h
    rw [embedStep_idx, if_neg h]
  have hin : ∀ (r : Nat) (st : List Nat × Nat) (c : Nat),
      (if st.2 < bits.length then
          (List.range 3).foldl (fun st ch => Encode.embedStep img bits r c ch st) st
        else st)
      = (List.range 3).foldl (fun st ch => Encode.embedStep img bits r c ch st) st := by
    intro r st c
    split
    · rfl
    · rename_i h
      exact (foldl_done bits.length _ (fun st ch h => hstep r c st ch h) _ st h).symm
  have hout : ∀ (st : List Nat × Nat) (r : Nat),
      (if st.2 < bits.length then
          (List.range img.cols).foldl (fun st c =>
            if st.2 < bits.length then
              (List.range 3).foldl (fun st ch => Encode.embedStep img bits r c ch st) st
            else st) st
        else st)
      = (List.range img.cols).foldl (fun st c =>
          (List.range 3).foldl (fun st ch => Encode.embedStep img bits r c ch st) st) st := by
    intro st r
    simp only [hin]
    split
    · rfl
    · rename_i h
      exact (foldl_done bits.length _
        (fun st c h => foldl_done bits.length _ (fun st ch h => hstep r c st ch h) _ st h) _ st h).symm
  simp only [hout]
  have := foldl_scan img (fun (st : List Nat × Nat) k =>
        if st.2 < bits.length then
          (st.1.set k ((st.1.getD k 0 &&& 0xFE) ||| (bits.getD st.2 false).toNat), st.2 + 1)
        else st) (img.data, 0)
  refine (congrArg Prod.fst this).trans ?_
  rw [embed_flat, List.take_of_length_le hcap]

theorem lsb_set (p : Nat) (b : Bool) : (((p &&& 0xFE) ||| b.toNat) &&& 1 != 0) = b := by
  have h : ((p &&& 0xFE) ||| b.toNat) &&& 1 = b.toNat := by
    apply Nat.eq_of_testBit_eq
    intro i
    cases b <;> cases i <;> simp [Nat.testBit_succ]
  rw [h]; cases b <;> rfl

theorem setLsbs_lsb (data : List Nat) (bits : Bits) (h : bits.length ≤ data.length) :
    (Encode.setLsbs data bits).map (fun p => p &&& 1 != 0)
      = bits ++ (data.drop bits.length).map (fun p => p &&& 1 != 0) := by
  induction data generalizing bits with
  | nil =>
    cases bits with
    | nil => rfl
    | cons b bs => simp at h
  | cons p ps ih =>
    cases bits with
    | nil => rfl
    | cons b bs =>
      simp only [Encode.setLsbs, List.map_cons, List.length_cons, List.drop_succ_cons,
        List.cons_append, lsb_set]
      rw [ih bs (by simpa using h)]

theorem embedBits_wf (img : Mat) (bits : Bits) (hwf : img.WF)
    (hcap : bits.length ≤ img.rows * img.cols * 3) : (Encode.embedBits img bits).WF := by
  unfold Mat.WF
  rw [embedBits_data img bits hcap, setLsbs_length]
  exact hwf

/-- What `extractChunk` reads from an image after `embedBits`: the embedded
bits, then the LSBs of the channels left untouched. -/
theorem lsbBits_embedBits (img : Mat) (bits : Bits) (hwf : img.WF)
    (hcap : bits.length ≤ img.rows * img.cols * 3) :
    Decode.lsbBits (Encode.embedBits img bits)
      = bits ++ (img.data.drop bits.length).map (fun p => p &&& 1 != 0) := by
  rw [lsbBits_eq _ (embedBits_wf img bits hwf hcap), embedBits_data img bits hcap,
    setLsbs_lsb _ _ (by rw [hwf]; exact hcap)]

/-! ## Splitting -/

/-- The chunk size is the least `k` with `size ≤ k * parts`: the ceiling of
`size / parts`. -/
theorem chunkSize_is_ceil (size parts : Nat) (hp : 0 < parts) :
    size ≤ Encode.chunkSize size parts * parts ∧
      ∀ k, size ≤ k * parts → Encode.chunkSize size parts ≤ k := by
  unfold Encode.chunkSize
  constructor
  · have h := Nat.div_add_mod (size + parts - 1) parts
    have h2 := Nat.mod_lt (size + parts - 1) hp
    have h3 : parts * ((size + parts - 1) / parts) = (size + parts - 1) / parts * parts :=
      Nat.mul_comm _ _
    omega
  · intro k hk
    apply Nat.le_of_lt_succ
    rw [Nat.div_lt_iff_lt_mul hp]
    have h1 : (k + 1) * parts = k * parts + parts := Nat.succ_mul k parts
    have h2 : k.succ * parts = k * parts + parts := Nat.succ_mul k parts
    omega

theorem sliceAt_eq (payload : Bytes) (chunk pos : Nat) :
    Encode.sliceAt payload chunk pos = (payload.drop pos).take chunk := by
  unfold Encode.sliceAt
  split
  · rw [Nat.min_def]
    split
    · rfl
    · rw [List.take_of_length_le (by simp), List.take_of_length_le (by simp; omega)]
  · rw [List.drop_of_length_le (by omega)]; simp

theorem sliceLoop_flatten (payload : Bytes) (chunk n pos : Nat) :
    (Encode.sliceLoop payload chunk n pos).flatten = (payload.drop pos).take (n * chunk) := by
  induction n generalizing pos with
  | zero => simp [Encode.sliceLoop]
  | succ n ih =>
    rw [Encode.sliceLoop, List.flatten_cons, ih, sliceAt_eq, Nat.succ_mul, Nat.add_comm (n * chunk),
      List.take_add, List.drop_drop]

theorem sliceLoop_length (payload : Bytes) (chunk n pos : Nat) :
    (Encode.sliceLoop payload chunk n pos).length = n := by
  induction n generalizing pos with
  | zero => rfl
  | succ n ih => simp [Encode.sliceLoop, ih]

theorem sliceLoop_mem (payload : Bytes) (chunk n pos : Nat) (s : Bytes)
    (h : s ∈ Encode.sliceLoop payload chunk n pos) :
    ∃ k, k < n ∧ s = Encode.sliceAt payload chunk (pos + k * chunk) := by
  induction n generalizing pos with
  | zero => simp [Encode.sliceLoop] at h
  | succ n ih =>
    simp only [Encode.sliceLoop, List.mem_cons] at h
    rcases h with h | h
    · exact ⟨0, by omega, by simpa using h⟩
    · obtain ⟨k, hk, hs⟩ := ih _ h
      exact ⟨k + 1, by omega, by rw [hs, Nat.succ_mul]; congr 1; omega⟩

theorem sliceLoop_getD (payload : Bytes) (chunk n pos k : Nat) (hk : k < n) :
    (Encode.sliceLoop payload chunk n pos).getD k [] = Encode.sliceAt payload chunk (pos + k * chunk) := by
  induction n generalizing pos k with
  | zero => omega
  | succ n ih =>
    cases k with
    | zero => simp [Encode.sliceLoop]
    | succ k =>
      simp only [Encode.sliceLoop, List.getD_cons_succ]
      rw [ih _ _ (by omega), Nat.succ_mul]
      congr 1
      omega

theorem splitLoop_length (payload pwd : Bytes) (chunk n i pos : Nat) :
    (Encode.splitLoop payload pwd chunk n i pos).length = n := by
  induction n generalizing i pos with
  | zero => rfl
  | succ n ih => simp [Encode.splitLoop, ih]

theorem splitLoop_getD (payload pwd : Bytes) (chunk n i pos k : Nat) (hk : k < n) :
    (Encode.splitLoop payload pwd chunk n i pos).getD k []
      = Encode.toBinaryStr (Encode.addTag (Encode.sliceAt payload chunk (pos + k * chunk)) (i + k) pwd) := by
  induction n generalizing i pos k with
  | zero => omega
  | succ n ih =>
    cases k with
    | zero => simp [Encode.splitLoop]
    | succ k =>
      simp only [Encode.splitLoop, List.getD_cons_succ]
      rw [ih _ _ _ (by omega), Nat.succ_mul]
      have e1 : pos + chunk + k * chunk = pos + (k * chunk + chunk) := by omega
      have e2 : i + 1 + k = i + (k + 1) := by omega
      rw [e1, e2]

/-- The slices of `splitAndTag` put together give the payload back. -/
theorem slices_flatten (P : Bytes) (N : Nat) (hN : 1 ≤ N) : (Encode.slices P N).flatten = P := by
  unfold Encode.slices
  rw [sliceLoop_flatten, List.drop_zero, List.take_of_length_le]
  exact (chunkSize_is_ceil P.length N hN).1.trans (le_of_eq (Nat.mul_comm _ _))

theorem sliceAt_eq_range (P : Bytes) (c p : Nat) :
    Encode.sliceAt P c p = if p < P.length then Spec.range P p (min (p + c) P.length) else [] := by
  unfold Spec.range Encode.sliceAt
  split
  · rw [List.drop_take]
    congr 1
    omega
  · rfl

/-- Slice `i` of the code is slice `i` of the specification. -/
theorem sliceAt_eq_spec (P : Bytes) (N i : Nat) :
    Encode.sliceAt P (Encode.chunkSize P.length N) (i * Encode.chunkSize P.length N)
      = Spec.slice P N i := by
  rw [sliceAt_eq_range]
  unfold Spec.slice
  simp only [Nat.succ_mul]
  rfl

theorem addTag_eq_spec (content : Bytes) (i : Nat) (h9 : i ≤ 9) (pwd : Bytes) :
    Encode.addTag content i pwd = content ++ Spec.tag i pwd := by
  unfold Encode.addTag Spec.tag
  split
  · simp [show toStr 0 = [(48 : Byte)] from rfl, show lit ("0seq###") = (48 : Byte) :: lit ("seq###") from rfl,
      ‹i = 0›]
  · rw [toStr_digit i h9]; rfl

/-- Entry `i` of `splitAndTag` is the bit string of tagged chunk `i`. -/
theorem splitAndTag_getD (P pwd : Bytes) (N i : Nat) (hi : i < N) (h9 : i ≤ 9) :
    (Encode.splitAndTag P N pwd).getD i [] = Encode.toBinaryStr (Spec.taggedChunk P N pwd i) := by
  unfold Encode.splitAndTag
  rw [splitLoop_getD _ _ _ _ _ _ _ hi, Nat.zero_add, Nat.zero_add, sliceAt_eq_spec,
    addTag_eq_spec _ _ h9]
  rfl

theorem slices_getD (P : Bytes) (N i : Nat) (hi : i < N) :
    (Encode.slices P N).getD i [] = Spec.slice P N i := by
  unfold Encode.slices
  rw [sliceLoop_getD _ _ _ _ _ hi, Nat.zero_add, sliceAt_eq_spec]

set_option maxRecDepth 100000 in
theorem toBinaryStr_eq_bitsOf (s : Bytes) : Encode.toBinaryStr s = Spec.bitsOf s := by
  induction s with
  | nil => rfl
  | cons c s ih =>
    rw [toBinaryStr_cons, ih]
    unfold Spec.bitsOf
    rw [List.flatMap_cons]
    congr 1
    revert c
    decide

/-! ## One image of the decoder loop -/

/-- Tag parsing inverts tagging for every index up to 9, when neither the
content nor the password holds the delimiter. -/
theorem parseTag_addTag (content pwd : Bytes) (k : Nat) (h9 : k ≤ 9)
    (hc : ¬ delim <:+: content) (hp : ¬ delim <:+: pwd) :
    Decode.parseTag (Encode.addTag content k pwd)
      = .chunk k (if k = 0 then some pwd else none) content := by
  rcases Nat.eq_zero_or_pos k with rfl | h
  · rw [addTag_zero_eq, parseTag_first content pwd hc hp]; rfl
  · rw [addTag_later_eq content k h h9, parseTag_later content k h h9, if_neg (by omega)]

theorem store_nat (pieces : List Bytes) (k : Nat) (content : Bytes) (hk : k < pieces.length) :
    Decode.store pieces (k : Int) content = .ok (pieces.set k content) := by
  unfold Decode.store
  rw [if_pos ⟨by omega, by omega⟩, Int.toNat_ofNat]

/-- The decoder's step on a tagged chunk: a password mismatch for index 0
with another password, a store at the chunk's index otherwise. -/
theorem processChunk_tagged (q pwd content : Bytes) (k : Nat) (h9 : k ≤ 9)
    (pieces : List Bytes) (hk : k < pieces.length)
    (hc : ¬ delim <:+: content) (hp : ¬ delim <:+: pwd) :
    Decode.processChunk q pieces (Encode.addTag content k pwd)
      = if k = 0 ∧ pwd ≠ q then .fail .passwordInvalid else .ok (pieces.set k content) := by
  unfold Decode.processChunk
  rw [parseTag_addTag content pwd k h9 hc hp]
  rcases Nat.eq_zero_or_pos k with rfl | h
  · simp only [if_true, true_and]
    by_cases hq : pwd = q
    · rw [if_neg (by simpa using hq), if_neg (by simpa using hq)]
      exact store_nat pieces 0 content hk
    · rw [if_pos hq, if_pos hq]
  · have hk0 : k ≠ 0 := by omega
    simp only [hk0, if_false, false_and]
    exact store_nat pieces k content hk

theorem getD_set (l : List Bytes) (i j : Nat) (a : Bytes) (hi : i < l.length) :
    (l.set i a).getD j [] = if i = j then a else l.getD j [] := by
  simp only [List.getD_eq_getElem?_getD, List.getElem?_set]
  split
  · simp [hi]
  · rfl

/-! ## The decoder loop on a set of tagged images -/

/-- With the right password the loop succeeds on any list of tagged images,
keeps the table size, writes slot `k` only with content `k`, and has written
every slot whose image is in the list. -/
theorem decodeLoop_tagged (pwd : Bytes) (sl : Nat → Bytes) (N : Nat)
    (hsl : ∀ k, ¬ delim <:+: sl k) (hp : ¬ delim <:+: pwd) (l : List Mat) :
    ∀ pieces : List Bytes, pieces.length = N →
      (∀ m ∈ l, m.empty = false ∧ ∃ k, Carries pwd sl N m k) →
      ∃ pieces', Decode.decodeLoop pwd l pieces = .ok pieces' ∧ pieces'.length = N ∧
        (∀ j, pieces'.getD j [] = sl j ∨ pieces'.getD j [] = pieces.getD j []) ∧
        (∀ k, (∃ m ∈ l, Carries pwd sl N m k) → pieces'.getD k [] = sl k) := by
  induction l with
  | nil =>
    intro pieces hlen _
    exact ⟨pieces, rfl, hlen, fun j => Or.inr rfl, fun k ⟨m, hm, _⟩ => absurd hm (by simp)⟩
  | cons m rest ih =>
    intro pieces hlen hall
    obtain ⟨hne, k0, hk0N, hk09, hx0⟩ := hall m (by simp)
    have hstep : ∀ k, Carries pwd sl N m k →
        Decode.processChunk pwd pieces (Decode.extractChunk m) = .ok (pieces.set k (sl k)) := by
      rintro k ⟨hkN, hk9, hx⟩
      rw [hx, processChunk_tagged pwd pwd (sl k) k hk9 pieces (by omega) (hsl k) hp,
        if_neg (by simp)]
    obtain ⟨pieces', hrun, hlen', hold, hnew⟩ :=
      ih (pieces.set k0 (sl k0)) (by simpa using hlen) (fun m' hm' => hall m' (by simp [hm']))
    refine ⟨pieces', ?_, hlen', ?_, ?_⟩
    · rw [Decode.decodeLoop, if_neg (by simp [hne]), hstep k0 ⟨hk0N, hk09, hx0⟩]
      exact hrun
    · intro j
      rcases hold j with h | h
      · exact Or.inl h
      · rw [getD_set _ _ _ _ (by omega)] at h
        split at h
        · rename_i e; subst e; exact Or.inl h
        · exact Or.inr h
    · rintro k ⟨m', hm', hc⟩
      rcases List.mem_cons.mp hm' with rfl | hin
      · have e := (hstep k hc).symm.trans (hstep k0 ⟨hk0N, hk09, hx0⟩)
        have e' : pieces.set k (sl k) = pieces.set k0 (sl k0) := by
          injection e
        rcases hold k with h | h
        · exact h
        · rw [h, ← e', getD_set _ _ _ _ (by have := hc.1; omega), if_pos rfl]
      · exact hnew k ⟨m', hin, hc⟩

/-- With another password the loop stops with the password error as soon as it
meets the image of index 0. -/
theorem decodeLoop_wrong (q pwd : Bytes) (hq : q ≠ pwd) (sl : Nat → Bytes) (N : Nat)
    (hsl : ∀ k, ¬ delim <:+: sl k) (hp : ¬ delim <:+: pwd) (l : List Mat) :
    ∀ pieces : List Bytes, pieces.length = N →
      (∀ m ∈ l, m.empty = false ∧ ∃ k, Carries pwd sl N m k) →
      (∃ m ∈ l, Carries pwd sl N m 0) →
      Decode.decodeLoop q l pieces = .fail .passwordInvalid := by
  induction l with
  | nil =>
    rintro pieces _ _ ⟨m, hm, _⟩
    exact absurd hm (by simp)
  | cons m rest ih =>
    rintro pieces hlen hall ⟨m0, hm0, hc0⟩
    obtain ⟨hne, k0, hk0N, hk09, hx0⟩ := hall m (by simp)
    rw [Decode.decodeLoop, if_neg (by simp [hne])]
    rcases List.mem_cons.mp hm0 with rfl | hin
    · obtain ⟨h0N, _, hx⟩ := hc0
      rw [hx, processChunk_tagged q pwd (sl 0) 0 (by omega) pieces (by omega) (hsl 0) hp,
        if_pos ⟨rfl, fun h => hq h.symm⟩]
    · rw [hx0, processChunk_tagged q pwd (sl k0) k0 hk09 pieces (by omega) (hsl k0) hp]
      by_cases hk : k0 = 0 ∧ pwd ≠ q
      · rw [if_pos hk]
      · rw [if_neg hk]
        exact ih (pieces.set k0 (sl k0)) (by simpa using hlen)
          (fun m' hm' => hall m' (by simp [hm'])) ⟨m0, hin, hc0⟩

theorem foldl_append_flatten (pieces : List Bytes) (acc : Bytes) :
    pieces.foldl (fun result s => result ++ s) acc = acc ++ pieces.flatten := by
  induction pieces generalizing acc with
  | nil => simp
  | cons p ps ih => simp [ih]

/-! ## The encoder loop and the set of images it writes -/

/-- An image read back after embedding a tagged chunk gives that chunk. -/
theorem extractChunk_embedBits (img : Mat) (t : Bytes) (hwf : img.WF)
    (hcap : 8 * t.length ≤ img.rows * img.cols * 3) (hend : hashes <:+ t)
    (hfirst : ¬ hashes <:+: t.dropLast) :
    Decode.extractChunk (Encode.embedBits img (Encode.toBinaryStr t)) = t := by
  unfold Decode.extractChunk
  rw [lsbBits_embedBits img _ hwf (by rw [toBinaryStr_length]; exact hcap),
    decodeBytes_tagged t _ hend hfirst]

/-- When every image is readable and large enough, the loop completes and
writes one embedded image per input image, in order. -/
theorem encodeLoop_ok (bc : List Bits) (imgs : List Mat) :
    ∀ (i : Nat) (written : List Mat),
      (∀ k (hk : k < imgs.length), imgs[k].empty = false ∧
        (bc.getD (i + k) []).length ≤ imgs[k].rows * imgs[k].cols * 3) →
      Encode.encodeLoop bc imgs i written = ⟨.completed, written ++
        List.zipWith (fun img k => Encode.embedBits img (bc.getD k [])) imgs
          (List.range' i imgs.length)⟩ := by
  induction imgs with
  | nil => intro i written _; simp [Encode.encodeLoop]
  | cons img rest ih =>
    intro i written h
    have h0 := h 0 (by simp)
    simp only [List.getElem_cons_zero, Nat.add_zero] at h0
    rw [Encode.encodeLoop, if_neg (by simp [h0.1])]
    unfold Encode.embedChecked
    simp only []
    rw [if_neg (by omega)]
    simp only []
    rw [ih (i + 1) _ (fun k hk => by
      have := h (k + 1) (by simpa using hk)
      simpa [Nat.add_assoc, Nat.add_comm 1 k] using this)]
    simp [List.range'_succ]

theorem slice_within (P : Bytes) (N i : Nat) : Spec.slice P N i <:+: P := by
  unfold Spec.slice Spec.range
  simp only []
  split
  · exact (List.drop_suffix _ _).isInfix.trans (List.take_prefix _ _).isInfix
  · exact ⟨[], P, by simp⟩

theorem taggedChunk_length (P pwd : Bytes) (N i : Nat) :
    7 ≤ (Spec.taggedChunk P N pwd i).length := by
  unfold Spec.taggedChunk Spec.tag
  rw [List.length_append]
  split
  · simp [show (lit ("0seq###")).length = 7 from rfl]
    omega
  · simp [show (lit ("seq###")).length = 6 from rfl]

/-- The set of images a successful encoder run writes: the run completes, and
output `k` is readable and carries tagged chunk `k`. -/
theorem main_written (P pwd : Bytes) (grids : List Mat)
    (hP : ¬ hashes <:+: P) (hpwd : ¬ hashes <:+: pwd)
    (hN : 1 ≤ grids.length ∧ grids.length ≤ 9) (hwf : ∀ g ∈ grids, g.WF)
    (hcap : ∀ i (h : i < grids.length),
      8 * (Spec.taggedChunk P grids.length pwd i).length ≤ grids[i].rows * grids[i].cols * 3) :
    (Encode.main P grids pwd pwd).status = .completed ∧
    (Encode.main P grids pwd pwd).written.length = grids.length ∧
    (∀ m ∈ (Encode.main P grids pwd pwd).written,
      m.empty = false ∧ ∃ k, Carries pwd (Spec.slice P grids.length) grids.length m k) ∧
    (∀ k, k < grids.length → ∃ m ∈ (Encode.main P grids pwd pwd).written,
      Carries pwd (Spec.slice P grids.length) grids.length m k) := by
  have hne : ∀ k (hk : k < grids.length), grids[k].empty = false := by
    intro k hk
    have h1 := hcap k hk
    have h2 := taggedChunk_length P pwd grids.length k
    unfold Mat.empty
    rw [beq_eq_false_iff_ne]
    intro h0
    rw [h0] at h1
    omega
  have hgetD : ∀ k, k < grids.length → (Encode.splitAndTag P grids.length pwd).getD k []
      = Encode.toBinaryStr (Spec.taggedChunk P grids.length pwd k) :=
    fun k hk => splitAndTag_getD P pwd grids.length k hk (by omega)
  have hrun : Encode.main P grids pwd pwd = ⟨.completed,
      List.zipWith (fun img k => Encode.embedBits img
        ((Encode.splitAndTag P grids.length pwd).getD k [])) grids
        (List.range' 0 grids.length)⟩ := by
    unfold Encode.main
    rw [if_neg (by simp; intro h; rw [h] at hN; simp at hN), if_neg (by omega), if_neg (by simp),
      encodeLoop_ok _ _ 0 [] (fun k hk => ⟨hne k hk, by
        rw [Nat.zero_add, hgetD k hk, toBinaryStr_length]; exact hcap k hk⟩)]
    simp
  have hcarry : ∀ k (hk : k < grids.length),
      Carries pwd (Spec.slice P grids.length) grids.length
        (Encode.embedBits grids[k] ((Encode.splitAndTag P grids.length pwd).getD k [])) k := by
    intro k hk
    refine ⟨hk, by omega, ?_⟩
    rw [hgetD k hk]
    have ht : Spec.taggedChunk P grids.length pwd k
        = Encode.addTag (Spec.slice P grids.length k) k pwd :=
      (addTag_eq_spec _ k (by omega) pwd).symm
    rw [ht]
    have hsl : ¬ hashes <:+: Spec.slice P grids.length k :=
      fun h => hP (h.trans (slice_within P grids.length k))
    exact extractChunk_embedBits _ _ (hwf _ (List.getElem_mem hk)) (by rw [← ht]; exact hcap k hk)
      (addTag_ends _ _ _) (addTag_first _ k (by omega) pwd hsl hpwd)
  rw [hrun]
  refine ⟨rfl, by simp, ?_, ?_⟩
  · intro m hm
    obtain ⟨k, hk, rfl⟩ := List.mem_iff_getElem.mp hm
    have hk' : k < grids.length := by simpa using hk
    simp only [List.getElem_zipWith, List.getElem_range', Nat.zero_add, Nat.one_mul]
    exact ⟨hne k hk', k, hcarry k hk'⟩
  · intro k hk
    refine ⟨_, List.getElem_mem (l := List.zipWith _ grids (List.range' 0 grids.length))
      (n := k) (by simpa using hk), ?_⟩
    simp only [List.getElem_zipWith, List.getElem_range', Nat.zero_add, Nat.one_mul]
    exact hcarry k hk

/-! ## Decoding a set of tagged images -/

theorem ext_getD (a b : List Bytes) (hlen : a.length = b.length)
    (h : ∀ k, k < a.length → a.getD k [] = b.getD k []) : a = b := by
  apply List.ext_getElem hlen
  intro k h1 h2
  have := h k h1
  simpa [List.getD_eq_getElem?_getD, List.getElem?_eq_getElem h1, List.getElem?_eq_getElem h2]
    using this

/-- Decoding, with the right password, any list of `N` images that carries
every tagged chunk of `P` returns `P`. -/
theorem main_set (P pwd : Bytes) (N : Nat) (hN : 1 ≤ N) (l : List Mat) (hlen : l.length = N)
    (hP : ¬ delim <:+: P) (hpwd : ¬ delim <:+: pwd)
    (hall : ∀ m ∈ l, m.empty = false ∧ ∃ k, Carries pwd (Spec.slice P N) N m k)
    (hevery : ∀ k, k < N → ∃ m ∈ l, Carries pwd (Spec.slice P N) N m k) :
    Decode.main l pwd = .ok P := by
  have hsl : ∀ k, ¬ delim <:+: Spec.slice P N k :=
    fun k h => hP (h.trans (slice_within P N k))
  obtain ⟨pieces', hrun, hlen', _, hnew⟩ :=
    decodeLoop_tagged pwd (Spec.slice P N) N hsl hpwd l (List.replicate l.length [])
      (by simpa using hlen) hall
  have hpieces : pieces' = Encode.slices P N := by
    apply ext_getD
    · rw [hlen']; unfold Encode.slices; rw [sliceLoop_length]
    · intro k hk
      rw [hnew k (hevery k (by omega)), slices_getD P N k (by omega)]
  unfold Decode.main
  rw [if_neg (by simp; intro h; rw [h] at hlen; simp at hlen; omega), hrun]
  simp only []
  rw [foldl_append_flatten, hpieces, slices_flatten P N hN, List.nil_append]

/-- Decoding such a list with another password stops with the password
error. -/
theorem main_set_wrong (P q pwd : Bytes) (hq : q ≠ pwd) (N : Nat) (hN : 1 ≤ N) (l : List Mat)
    (hlen : l.length = N) (hP : ¬ delim <:+: P) (hpwd : ¬ delim <:+: pwd)
    (hall : ∀ m ∈ l, m.empty = false ∧ ∃ k, Carries pwd (Spec.slice P N) N m k)
    (hevery : ∀ k, k < N → ∃ m ∈ l, Carries pwd (Spec.slice P N) N m k) :
    Decode.main l q = .fail .passwordInvalid := by
  have hsl : ∀ k, ¬ delim <:+: Spec.slice P N k :=
    fun k h => hP (h.trans (slice_within P N k))
  obtain ⟨m0, hm0, hc0⟩ := hevery 0 (by omega)
  unfold Decode.main
  rw [if_neg (by simp; rintro rfl; simp at hm0),
    decodeLoop_wrong q pwd hq (Spec.slice P N) N hsl hpwd l _ (by simpa using hlen) hall
      ⟨m0, hm0, hc0⟩]

/-! ## The claims -/

/-- The images of a correct encoder run: the run completes, writes one image
per grid, and output `k` carries tagged chunk `k`. -/
theorem encodable_written (P pwd : Bytes) (grids : List Mat) (h : Encodable P pwd grids) :
    (Encode.main P grids pwd pwd).status = .completed ∧
    (Encode.main P grids pwd pwd).written.length = grids.length ∧
    (∀ m ∈ (Encode.main P grids pwd pwd).written,
      m.empty = false ∧ ∃ k, Carries pwd (Spec.slice P grids.length) grids.length m k) ∧
    (∀ k, k < grids.length → ∃ m ∈ (Encode.main P grids pwd pwd).written,
      Carries pwd (Spec.slice P grids.length) grids.length m k) :=
  main_written P pwd grids h.1.1 h.2.1.1 h.2.2.1 h.2.2.2.1 h.2.2.2.2

/-- C1 (round trip).  For a payload and a password that contain neither
`"###"` nor `"@%#/"`, between 1 and 9 three-channel grids, grid `i` having at
least `8 * len(tagged chunk i)` channels, the encoder completes and the
decoder, run with the same password on the images the encoder wrote, returns
exactly the payload. -/
theorem roundtrip (P pwd : Bytes) (grids : List Mat) (h : Encodable P pwd grids) :
    (Encode.main P grids pwd pwd).status = .completed ∧
      Decode.main (Encode.main P grids pwd pwd).written pwd = .ok P := by
  obtain ⟨hst, hlen, hall, hevery⟩ := encodable_written P pwd grids h
  exact ⟨hst, main_set P pwd grids.length h.2.2.1.1 _ hlen h.1.2 h.2.1.2 hall hevery⟩

set_option maxRecDepth 100000 in
/-- C1 at the worked example: two images, payload `"HELLO WORLD"`, password `"x"`. -/
theorem roundtrip_witness :
    Encodable exPayload exPwd exGrids ∧
    (Encode.main exPayload exGrids exPwd exPwd).status = .completed ∧
      Decode.main (Encode.main exPayload exGrids exPwd exPwd).written exPwd = .ok exPayload :=
  ⟨by decide, roundtrip exPayload exPwd exGrids (by decide)⟩

/-- C2 (split coverage).  For every payload and every `N ≥ 1` the slices cut
by `splitAndTag` are `N` in number, are the contents that `splitAndTag` tags
(entry `i` of its result is the bit string of slice `i` with its tag),
concatenated in index order give the payload exactly, and each has length at
most `ceil(len(P) / N)`, the chunk size, which is the least `c` with
`len(P) ≤ c * N`. -/
theorem split_coverage (P : Bytes) (N : Nat) (hN : 1 ≤ N) :
    (Encode.slices P N).length = N ∧
    (∀ pwd i, i < N → (Encode.splitAndTag P N pwd).getD i []
      = Encode.toBinaryStr (Encode.addTag ((Encode.slices P N).getD i []) i pwd)) ∧
    (Encode.slices P N).flatten = P ∧
    (∀ s ∈ Encode.slices P N, s.length ≤ Encode.chunkSize P.length N) ∧
    (P.length ≤ Encode.chunkSize P.length N * N ∧
      ∀ c, P.length ≤ c * N → Encode.chunkSize P.length N ≤ c) := by
  refine ⟨sliceLoop_length _ _ _ _, ?_, slices_flatten P N hN, ?_, chunkSize_is_ceil P.length N hN⟩
  · intro pwd i hi
    unfold Encode.splitAndTag Encode.slices
    rw [splitLoop_getD _ _ _ _ _ _ _ hi, sliceLoop_getD _ _ _ _ _ hi, Nat.zero_add, Nat.zero_add]
  · intro s hs
    obtain ⟨k, _, rfl⟩ := sliceLoop_mem _ _ _ _ _ hs
    rw [sliceAt_eq, List.length_take]
    exact Nat.min_le_left _ _

/-- C2 at the worked example: `"HELLO WORLD"` cut in two. -/
theorem split_coverage_witness :
    1 ≤ 2 ∧
    (Encode.slices exPayload 2).length = 2 ∧
    (∀ pwd i, i < 2 → (Encode.splitAndTag exPayload 2 pwd).getD i []
      = Encode.toBinaryStr (Encode.addTag ((Encode.slices exPayload 2).getD i []) i pwd)) ∧
    (Encode.slices exPayload 2).flatten = exPayload ∧
    (∀ s ∈ Encode.slices exPayload 2, s.length ≤ Encode.chunkSize exPayload.length 2) ∧
    (exPayload.length ≤ Encode.chunkSize exPayload.length 2 * 2 ∧
      ∀ c, exPayload.length ≤ c * 2 → Encode.chunkSize exPayload.length 2 ≤ c) :=
  ⟨by decide, split_coverage exPayload 2 (by decide)⟩

/-- C3 (tag symmetry), as amended.  For every index `i` in `0..9`, every
content that contains neither `"@%#/"` nor `"###"` and every password that
does not contain `"@%#/"`, the encoder's tagged chunk is the content followed
by the tag of the wire format, and the decoder's tag parsing reads from it
the index `i`, the content, and for `i = 0` the password. -/
theorem tag_symmetry (i : Nat) (content pwd : Bytes) (hi : i ≤ 9)
    (hc : ¬ delim <:+: content ∧ ¬ hashes <:+: content) (hp : ¬ delim <:+: pwd) :
    Encode.addTag content i pwd = content ++ Spec.tag i pwd ∧
    Decode.parseTag (Encode.addTag content i pwd)
      = .chunk (i : Int) (if i = 0 then some pwd else none) content :=
  ⟨addTag_eq_spec content i hi pwd, parseTag_addTag content pwd i hi hc.1 hp⟩

/-- C3 at index 0 with content `"HELLO WORLD"` and password `"x"`. -/
theorem tag_symmetry_witness :
    (0 ≤ 9 ∧ (¬ delim <:+: exPayload ∧ ¬ hashes <:+: exPayload) ∧ ¬ delim <:+: exPwd) ∧
    Encode.addTag exPayload 0 exPwd = exPayload ++ Spec.tag 0 exPwd ∧
    Decode.parseTag (Encode.addTag exPayload 0 exPwd)
      = .chunk ((0 : Nat) : Int) (if 0 = 0 then some exPwd else none) exPayload :=
  ⟨by decide, tag_symmetry 0 exPayload exPwd (by decide) (by decide) (by decide)⟩

/-- C3 as stated fails for a password that contains the delimiter: with
content `"A"` (free of both markers), index 0 and password `"p@%#/q"`, tag
parsing reads the password `"p"`. -/
theorem tag_symmetry_counterexample :
    (¬ delim <:+: lit ("A") ∧ ¬ hashes <:+: lit ("A")) ∧
    Decode.parseTag (Encode.addTag (lit ("A")) 0 (lit ("p@%#/q")))
      = .chunk 0 (some (lit ("p"))) (lit ("A")) ∧
    lit ("p") ≠ lit ("p@%#/q") := by
  decide

/-- C4 (password gate).  On the images of a correct encoder run (payload and
password free of `"###"` and `"@%#/"`, 1 to 9 grids of sufficient capacity)
the decoder returns the payload when the entered password is the encoder's
and stops with the password error, writing nothing, for any other. -/
theorem password_gate (P pwd : Bytes) (grids : List Mat) (h : Encodable P pwd grids) :
    (Encode.main P grids pwd pwd).status = .completed ∧
    ∀ q, Decode.main (Encode.main P grids pwd pwd).written q
      = if q = pwd then .ok P else .fail .passwordInvalid := by
  obtain ⟨hst, hlen, hall, hevery⟩ := encodable_written P pwd grids h
  refine ⟨hst, fun q => ?_⟩
  by_cases hq : q = pwd
  · rw [if_pos hq, hq]
    exact main_set P pwd grids.length h.2.2.1.1 _ hlen h.1.2 h.2.1.2 hall hevery
  · rw [if_neg hq]
    exact main_set_wrong P q pwd hq grids.length h.2.2.1.1 _ hlen h.1.2 h.2.1.2 hall hevery

set_option maxRecDepth 100000 in
/-- C4 at the worked example. -/
theorem password_gate_witness :
    Encodable exPayload exPwd exGrids ∧
    (Encode.main exPayload exGrids exPwd exPwd).status = .completed ∧
    ∀ q, Decode.main (Encode.main exPayload exGrids exPwd exPwd).written q
      = if q = exPwd then .ok exPayload else .fail .passwordInvalid :=
  ⟨by decide, password_gate exPayload exPwd exGrids (by decide)⟩

/-- C5 (order independence).  On the images of a correct encoder run, the
decoder run on any permutation `L` of the list, with the encoder's password,
gives the same result as on the list in the encoder's order, namely the
payload. -/
theorem order_independence (P pwd : Bytes) (grids : List Mat) (h : Encodable P pwd grids)
    (L : List Mat) (hL : L.Perm (Encode.main P grids pwd pwd).written) :
    Decode.main L pwd = Decode.main (Encode.main P grids pwd pwd).written pwd ∧
      Decode.main L pwd = .ok P := by
  obtain ⟨_, hlen, hall, hevery⟩ := encodable_written P pwd grids h
  have h1 := main_set P pwd grids.length h.2.2.1.1 _ hlen h.1.2 h.2.1.2 hall hevery
  have h2 : Decode.main L pwd = .ok P :=
    main_set P pwd grids.length h.2.2.1.1 L (hL.length_eq.trans hlen) h.1.2 h.2.1.2
      (fun m hm => hall m (hL.mem_iff.mp hm))
      (fun k hk => by
        obtain ⟨m, hm, hc⟩ := hevery k hk
        exact ⟨m, hL.mem_iff.mpr hm, hc⟩)
  exact ⟨h2.trans h1.symm, h2⟩

set_option maxRecDepth 100000 in
/-- C5 at the worked example, its two images enumerated in reverse order. -/
theorem order_independence_witness :
    (Encodable exPayload exPwd exGrids ∧
      (Encode.main exPayload exGrids exPwd exPwd).written.reverse.Perm
        (Encode.main exPayload exGrids exPwd exPwd).written) ∧
    Decode.main (Encode.main exPayload exGrids exPwd exPwd).written.reverse exPwd
      = Decode.main (Encode.main exPayload exGrids exPwd exPwd).written exPwd ∧
    Decode.main (Encode.main exPayload exGrids exPwd exPwd).written.reverse exPwd
      = .ok exPayload :=
  ⟨⟨by decide, List.reverse_perm _⟩,
    order_independence exPayload exPwd exGrids (by decide) _ (List.reverse_perm _)⟩

/-- C6 (capacity boundary).  For a grid of `rows * cols` three-channel pixels
the per-image step of the encoder accepts a bit sequence `bits` of length
exactly `rows * cols * 3`, embeds all its bits (the LSBs read back in scan
order are `bits`) and the loop goes on with that image written; it rejects a
bit sequence `more` of any greater length, leaves the grid as it was, and the
loop stops with the capacity error without writing. -/
theorem capacity_boundary (img : Mat) (bits more : Bits) (hwf : img.WF)
    (hfull : bits.length = img.rows * img.cols * 3)
    (hmore : more.length > img.rows * img.cols * 3) :
    Encode.embedChecked img bits = (true, Encode.embedBits img bits) ∧
    Decode.lsbBits (Encode.embedBits img bits) = bits ∧
    Encode.embedChecked img more = (false, img) ∧
    (∀ bc rest i written, img.empty = false → bc.getD i [] = bits →
      Encode.encodeLoop bc (img :: rest) i written
        = Encode.encodeLoop bc rest (i + 1) (written ++ [Encode.embedBits img bits])) ∧
    (∀ bc rest i written, img.empty = false → bc.getD i [] = more →
      Encode.encodeLoop bc (img :: rest) i written = ⟨.chunkTooBig i, written⟩) := by
  have h1 : Encode.embedChecked img bits = (true, Encode.embedBits img bits) := by
    unfold Encode.embedChecked
    simp only []
    rw [if_neg (by omega)]
  have h2 : Encode.embedChecked img more = (false, img) := by
    unfold Encode.embedChecked
    simp only []
    rw [if_pos hmore]
  refine ⟨h1, ?_, h2, ?_, ?_⟩
  · rw [lsbBits_embedBits img bits hwf (by omega), List.drop_of_length_le (by rw [hwf]; omega)]
    simp
  · intro bc rest i written hne hb
    rw [Encode.encodeLoop, if_neg (by simp [hne]), hb, h1]
  · intro bc rest i written hne hb
    rw [Encode.encodeLoop, if_neg (by simp [hne]), hb, h2]

/-- C6 on one pixel: three bits fit, four do not. -/
theorem capacity_boundary_witness :
    (exPixel.WF ∧ [true, false, true].length = exPixel.rows * exPixel.cols * 3 ∧
      [true, false, true, true].length > exPixel.rows * exPixel.cols * 3) ∧
    Encode.embedChecked exPixel [true, false, true]
      = (true, Encode.embedBits exPixel [true, false, true]) ∧
    Decode.lsbBits (Encode.embedBits exPixel [true, false, true]) = [true, false, true] ∧
    Encode.embedChecked exPixel [true, false, true, true] = (false, exPixel) ∧
    (∀ bc rest i written, exPixel.empty = false → bc.getD i [] = [true, false, true] →
      Encode.encodeLoop bc (exPixel :: rest) i written
        = Encode.encodeLoop bc rest (i + 1)
            (written ++ [Encode.embedBits exPixel [true, false, true]])) ∧
    (∀ bc rest i written, exPixel.empty = false → bc.getD i [] = [true, false, true, true] →
      Encode.encodeLoop bc (exPixel :: rest) i written = ⟨.chunkTooBig i, written⟩) :=
  ⟨by decide, capacity_boundary exPixel [true, false, true] [true, false, true, true]
    (by decide) (by decide) (by decide)⟩

/-- The encoder loop on images that are fine up to a first one that is not:
it stops there, with the earlier images written. -/
theorem encodeLoop_abort (bc : List Bits) (bad : Mat) (rest : List Mat) (pre : List Mat) :
    ∀ (i : Nat) (written : List Mat),
      (∀ j (hj : j < pre.length), pre[j].empty = false ∧
        (bc.getD (i + j) []).length ≤ pre[j].rows * pre[j].cols * 3) →
      (bad.empty = true ∨ (bc.getD (i + pre.length) []).length > bad.rows * bad.cols * 3) →
      Encode.encodeLoop bc (pre ++ bad :: rest) i written
        = ⟨if bad.empty then .cannotRead (i + pre.length) else .chunkTooBig (i + pre.length),
          written ++ List.zipWith (fun img k => Encode.embedBits img (bc.getD k [])) pre
            (List.range' i pre.length)⟩ := by
  induction pre with
  | nil =>
    intro i written _ hbad
    simp only [List.nil_append, List.length_nil, Nat.add_zero, List.zipWith_nil_left,
      List.append_nil]
    rw [Encode.encodeLoop]
    by_cases he : bad.empty = true
    · rw [if_pos he, if_pos he]
    · rw [if_neg he, if_neg he]
      have hb := hbad.resolve_left he
      simp only [List.length_nil, Nat.add_zero] at hb
      unfold Encode.embedChecked
      simp only []
      rw [if_pos hb]
  | cons img pre ih =>
    intro i written h hbad
    have h0 := h 0 (by simp)
    simp only [List.getElem_cons_zero, Nat.add_zero] at h0
    rw [List.cons_append, Encode.encodeLoop, if_neg (by simp [h0.1])]
    unfold Encode.embedChecked
    simp only []
    rw [if_neg (by omega)]
    simp only []
    rw [ih (i + 1) _ (fun k hk => by
      have := h (k + 1) (by simpa using hk)
      simpa [Nat.add_assoc, Nat.add_comm 1 k] using this)
      (by simpa [Nat.add_assoc, Nat.add_comm 1] using hbad)]
    simp [List.range'_succ, Nat.add_assoc, Nat.add_comm 1]

/-- C7 (encoder abort), as amended.  In a run over at most nine images in
which the images before image `k` are readable and large enough for their
chunks and image `k` is unreadable or too small for chunk `k`, the encoder
stops at image `k` with the matching error; the output images of the `k`
images before it have been written and stay, and nothing is written for
image `k` or a later one. -/
theorem encoder_abort (P pwd : Bytes) (pre : List Mat) (bad : Mat) (rest : List Mat)
    (hN : (pre ++ bad :: rest).length ≤ 9)
    (hpre : ∀ j (hj : j < pre.length), pre[j].empty = false ∧
      ((Encode.splitAndTag P (pre ++ bad :: rest).length pwd).getD j []).length
        ≤ pre[j].rows * pre[j].cols * 3)
    (hbad : bad.empty = true ∨
      ((Encode.splitAndTag P (pre ++ bad :: rest).length pwd).getD pre.length []).length
        > bad.rows * bad.cols * 3) :
    Encode.main P (pre ++ bad :: rest) pwd pwd
      = ⟨if bad.empty then .cannotRead pre.length else .chunkTooBig pre.length,
        List.zipWith (fun img k => Encode.embedBits img
            ((Encode.splitAndTag P (pre ++ bad :: rest).length pwd).getD k [])) pre
          (List.range' 0 pre.length)⟩ ∧
    (Encode.main P (pre ++ bad :: rest) pwd pwd).written.length = pre.length := by
  have hrun : Encode.main P (pre ++ bad :: rest) pwd pwd
      = ⟨if bad.empty then .cannotRead pre.length else .chunkTooBig pre.length,
        List.zipWith (fun img k => Encode.embedBits img
            ((Encode.splitAndTag P (pre ++ bad :: rest).length pwd).getD k [])) pre
          (List.range' 0 pre.length)⟩ := by
    unfold Encode.main
    rw [if_neg (by simp), if_neg (by omega), if_neg (by simp),
      encodeLoop_abort _ bad rest pre 0 [] (by simpa using hpre) (by simpa using hbad)]
    simp
  rw [hrun]
  exact ⟨rfl, by simp⟩

set_option maxRecDepth 100000 in
/-- C7 with one good image followed by an unreadable file. -/
theorem encoder_abort_witness :
    (([exGridA] ++ unreadable :: []).length ≤ 9 ∧
      (∀ j (hj : j < [exGridA].length), [exGridA][j].empty = false ∧
        ((Encode.splitAndTag exPayload ([exGridA] ++ unreadable :: []).length exPwd).getD j []).length
          ≤ [exGridA][j].rows * [exGridA][j].cols * 3) ∧
      (unreadable.empty = true ∨
        ((Encode.splitAndTag exPayload ([exGridA] ++ unreadable :: []).length exPwd).getD
          [exGridA].length []).length > unreadable.rows * unreadable.cols * 3)) ∧
    Encode.main exPayload ([exGridA] ++ unreadable :: []) exPwd exPwd
      = ⟨if unreadable.empty then .cannotRead [exGridA].length else .chunkTooBig [exGridA].length,
        List.zipWith (fun img k => Encode.embedBits img
            ((Encode.splitAndTag exPayload ([exGridA] ++ unreadable :: []).length exPwd).getD k []))
          [exGridA] (List.range' 0 [exGridA].length)⟩ ∧
    (Encode.main exPayload ([exGridA] ++ unreadable :: []) exPwd exPwd).written.length
      = [exGridA].length :=
  ⟨by decide, encoder_abort exPayload exPwd [exGridA] unreadable [] (by decide) (by decide)
    (by decide)⟩

set_option maxRecDepth 100000 in
/-- C7 as stated fails: with a good first image and an unreadable second
file the run stops at image 1 and the output of image 0 has been written. -/
theorem encoder_atomicity_counterexample :
    (Encode.main exPayload [exGridA, unreadable] exPwd exPwd).status = .cannotRead 1 ∧
    (Encode.main exPayload [exGridA, unreadable] exPwd exPwd).written
      = [Encode.embedBits exGridA (Encode.toBinaryStr (lit ("HELLO @%#/x@%#/0seq###")))] ∧
    (Encode.main exPayload [exGridA, unreadable] exPwd exPwd).written ≠ [] := by
  decide

set_option maxRecDepth 100000 in
/-- C8 (silent gap) at a failing input.  The two images of the worked example
are a correctly encoded set; image 1, whose extracted stream is
`"WORLD1seq###"`, is a non-empty proper sub-collection of it.  Decoding that
image alone with the right password makes the decoder store at index 1 of a
table of size 1, outside the table, where the claim has the run succeed and
return `"WORLD"`.  (Decoding image 0 alone stores at index 0 and returns
`"HELLO "`.) -/
theorem silent_gap_store_outside :
    Encodable exPayload exPwd exGrids ∧
    ((Encode.main exPayload exGrids exPwd exPwd).written.drop 1).map Decode.extractChunk
      = [lit ("WORLD1seq###")] ∧
    Decode.main ((Encode.main exPayload exGrids exPwd exPwd).written.drop 1) exPwd
      = .fail .storeOutOfRange ∧
    Decode.main ((Encode.main exPayload exGrids exPwd exPwd).written.take 1) exPwd
      = .ok (lit ("HELLO ")) := by
  decide

set_option maxRecDepth 100000 in
/-- C9 (sequence-index safety) at failing inputs.  A single readable image
whose stream is `"5seq###"` makes the decoder store at index 5 of a table of
size 1; and with a table of size 18 (that image first, then 17 one-pixel
images, which are skipped) a stream `"XYAseq###"`, whose 7th-from-last byte
is the letter `A`, is stored at index 17 and comes out in the result. -/
theorem store_index_unchecked :
    (exStray.empty = false ∧ Decode.extractChunk exStray = lit ("5seq###") ∧
      Decode.main [exStray] exPwd = .fail .storeOutOfRange) ∧
    (exLetter.empty = false ∧ Decode.extractChunk exLetter = lit ("XYAseq###") ∧
      Decode.processChunk exPwd (List.replicate 18 []) (lit ("XYAseq###"))
        = .ok ((List.replicate 18 []).set 17 (lit ("XY"))) ∧
      Decode.main (exLetter :: List.replicate 17 exPixel) exPwd = .ok (lit ("XY"))) := by
  decide

set_option maxRecDepth 100000 in
/-- C10 (wire format).  For `1 ≤ N ≤ 9` and `i < N`, `splitAndTag` returns
`N` bit sequences and the `i`-th is the MSB-first bit expansion of slice `i`
followed by tag `i`, of length `8 * len(slice_i ++ tag_i)`; for
`"HELLO WORLD"`, two images and password `"x"` the two tagged chunks are
`"HELLO @%#/x@%#/0seq###"` and `"WORLD1seq###"`. -/
theorem wire_format (P pwd : Bytes) (N i : Nat) (hN : 1 ≤ N ∧ N ≤ 9) (hi : i < N) :
    (Encode.splitAndTag P N pwd).length = N ∧
    (Encode.splitAndTag P N pwd)[i]? = some (Spec.bitsOf (Spec.taggedChunk P N pwd i)) ∧
    (Spec.bitsOf (Spec.taggedChunk P N pwd i)).length
      = 8 * (Spec.slice P N i ++ Spec.tag i pwd).length ∧
    Encode.splitAndTag (lit ("HELLO WORLD")) 2 (lit ("x"))
      = [Spec.bitsOf (lit ("HELLO @%#/x@%#/0seq###")), Spec.bitsOf (lit ("WORLD1seq###"))] := by
  have hlen : (Encode.splitAndTag P N pwd).length = N := splitLoop_length _ _ _ _ _ _
  have hget := splitAndTag_getD P pwd N i hi (by omega)
  have hlt : i < (Encode.splitAndTag P N pwd).length := by omega
  refine ⟨hlen, ?_, ?_, by decide⟩
  · rw [List.getD_eq_getElem?_getD, List.getElem?_eq_getElem hlt, Option.getD_some] at hget
    rw [List.getElem?_eq_getElem hlt, hget, toBinaryStr_eq_bitsOf]
  · rw [← toBinaryStr_eq_bitsOf, toBinaryStr_length]
    rfl

/-- C10 at chunk 1 of the worked example. -/
theorem wire_format_witness :
    ((1 ≤ 2 ∧ 2 ≤ 9) ∧ 1 < 2) ∧
    (Encode.splitAndTag exPayload 2 exPwd).length = 2 ∧
    (Encode.splitAndTag exPayload 2 exPwd)[1]?
      = some (Spec.bitsOf (Spec.taggedChunk exPayload 2 exPwd 1)) ∧
    (Spec.bitsOf (Spec.taggedChunk exPayload 2 exPwd 1)).length
      = 8 * (Spec.slice exPayload 2 1 ++ Spec.tag 1 exPwd).length ∧
    Encode.splitAndTag (lit ("HELLO WORLD")) 2 (lit ("x"))
      = [Spec.bitsOf (lit ("HELLO @%#/x@%#/0seq###")), Spec.bitsOf (lit ("WORLD1seq###"))] :=
  ⟨by decide, wire_format exPayload exPwd 2 1 (by decide) (by decide)⟩

/-! ## Bit codec, bit by bit -/

set_option maxRecDepth 100000 in
theorem toBinary_getElem (c : Byte) (k : Nat) (hk : k < 8) :
    (Encode.toBinary c)[k]? = some (c.val.testBit (7 - k)) := by
  interval_cases k <;> revert c <;> decide

theorem toBinaryStr_getElem (s : Bytes) :
    ∀ (j : Nat) (hj : j < s.length) (k : Nat), k < 8 →
      (Encode.toBinaryStr s)[8 * j + k]? = some (s[j].val.testBit (7 - k)) := by
  induction s with
  | nil => intro j hj; simp at hj
  | cons c s ih =>
    intro j hj k hk
    rw [toBinaryStr_cons]
    cases j with
    | zero =>
      rw [Nat.mul_zero, Nat.zero_add, List.getElem?_append_left (by rw [toBinary_length]; exact hk)]
      exact toBinary_getElem c k hk
    | succ j =>
      rw [List.getElem?_append_right (by rw [toBinary_length]; omega), toBinary_length,
        show 8 * (j + 1) + k - 8 = 8 * j + k by omega]
      exact ih j (by simpa using hj) k hk

/-- C17 (bit codec).  `toBinary` of a byte string `s` has `8 * len(s)` bits,
bit `8 * j + k` (`k < 8`) being bit `7 - k` of byte `s[j]`, most significant
first; and the eight bits of a byte, read as a base-2 number the way the
decoder reads each group of eight and cast to `char`, give the byte back. -/
theorem bit_codec (s : Bytes) :
    (Encode.toBinaryStr s).length = 8 * s.length ∧
    (∀ (j : Nat) (hj : j < s.length) (k : Nat), k < 8 →
      (Encode.toBinaryStr s)[8 * j + k]? = some (s[j].val.testBit (7 - k))) ∧
    (∀ b : Byte, (Encode.toBinary b).length = 8 ∧ Decode.stoi2 (Encode.toBinary b) = b.val ∧
      toChar (Decode.stoi2 (Encode.toBinary b)) = b) :=
  ⟨toBinaryStr_length s, toBinaryStr_getElem s,
    fun b => ⟨toBinary_length b, stoi2_toBinary b, by rw [stoi2_toBinary, toChar_val]⟩⟩

/-! ## The scan order and the effect of `embedBits` on it -/

theorem foldl_append_flatMap {α β : Type} (G : α → List β) (l : List α) (acc : List β) :
    l.foldl (fun acc x => acc ++ G x) acc = acc ++ l.flatMap G := by
  induction l generalizing acc with
  | nil => simp
  | cons x l ih => simp [ih]

theorem range_map_getD_nat (l : List Nat) :
    (List.range l.length).map (fun k => l.getD k 0) = l := by
  apply List.ext_getElem
  · simp
  · intro n h1 h2
    simp at h1
    simp [List.getD_eq_getElem?_getD, List.getElem?_eq_getElem h1]

/-- The scan of a grid is its channel list. -/
theorem scan_eq_data (img : Mat) (hwf : img.WF) : Spec.scan img = img.data := by
  have h3 : ∀ (r c : Nat) (acc : List Nat),
      (List.range 3).foldl (fun acc ch => acc ++ [img.data.getD (img.idx r c ch) 0]) acc
        = acc ++ (List.range 3).map (fun ch => img.ch r c ch) :=
    fun r c acc => foldl_snoc_map (fun ch => img.data.getD (img.idx r c ch) 0) _ acc
  have h2 : ∀ (r : Nat) (acc : List Nat),
      (List.range img.cols).foldl (fun acc c =>
        (List.range 3).foldl (fun acc ch => acc ++ [img.data.getD (img.idx r c ch) 0]) acc) acc
        = acc ++ (List.range img.cols).flatMap (fun c =>
            (List.range 3).map (fun ch => img.ch r c ch)) := by
    intro r acc
    simp only [h3]
    exact foldl_append_flatMap _ _ acc
  have h1 : (List.range img.rows).foldl (fun acc r =>
      (List.range img.cols).foldl (fun acc c =>
        (List.range 3).foldl (fun acc ch => acc ++ [img.data.getD (img.idx r c ch) 0]) acc) acc) []
        = Spec.scan img := by
    simp only [h2]
    rw [foldl_append_flatMap, List.nil_append]
    rfl
  rw [← h1, foldl_scan img (fun (acc : List Nat) k => acc ++ [img.data.getD k 0]) [],
    foldl_snoc_map (fun k => img.data.getD k 0), List.nil_append, ← hwf]
  exact range_map_getD_nat img.data

theorem setLsbs_getD (data : List Nat) (bits : Bits) (k : Nat) (hk : k < data.length) :
    (Encode.setLsbs data bits).getD k 0
      = if k < bits.length then (data.getD k 0 &&& 0xFE) ||| (bits.getD k false).toNat
        else data.getD k 0 := by
  induction data generalizing bits k with
  | nil => simp at hk
  | cons p ps ih =>
    cases bits with
    | nil => simp [Encode.setLsbs]
    | cons b bs =>
      cases k with
      | zero => simp [Encode.setLsbs]
      | succ k =>
        have := ih bs k (by simpa using hk)
        simpa [Encode.setLsbs] using this

/-- C15 (embed postcondition).  For a grid of `rows * cols` three-channel
pixels and a bit sequence `b` with `len(b) ≤ rows * cols * 3`, after
`embedBits` the dimensions are unchanged and the `k`-th channel in row-major,
channel-minor scan order is `(old_k & 0xFE) | b_k` for `k < len(b)` and
`old_k` for `k ≥ len(b)`. -/
theorem embed_postcondition (img : Mat) (b : Bits) (hwf : img.WF)
    (hcap : b.length ≤ img.rows * img.cols * 3) :
    (Encode.embedBits img b).rows = img.rows ∧ (Encode.embedBits img b).cols = img.cols ∧
    (Spec.scan (Encode.embedBits img b)).length = img.rows * img.cols * 3 ∧
    ∀ k, k < img.rows * img.cols * 3 →
      (Spec.scan (Encode.embedBits img b)).getD k 0
        = if k < b.length then ((Spec.scan img).getD k 0 &&& 0xFE) ||| (b.getD k false).toNat
          else (Spec.scan img).getD k 0 := by
  have hwf' := embedBits_wf img b hwf hcap
  rw [scan_eq_data _ hwf', scan_eq_data _ hwf, embedBits_data img b hcap, setLsbs_length]
  refine ⟨rfl, rfl, hwf, fun k hk => setLsbs_getD img.data b k (by rw [hwf]; exact hk)⟩

/-- C15 on the 6 x 6 example image with the ten bits `1010101010`. -/
theorem embed_postcondition_witness :
    (exGridB.WF ∧ exBits.length ≤ exGridB.rows * exGridB.cols * 3) ∧
    (Encode.embedBits exGridB exBits).rows = exGridB.rows ∧
    (Encode.embedBits exGridB exBits).cols = exGridB.cols ∧
    (Spec.scan (Encode.embedBits exGridB exBits)).length = exGridB.rows * exGridB.cols * 3 ∧
    ∀ k, k < exGridB.rows * exGridB.cols * 3 →
      (Spec.scan (Encode.embedBits exGridB exBits)).getD k 0
        = if k < exBits.length then
            ((Spec.scan exGridB).getD k 0 &&& 0xFE) ||| (exBits.getD k false).toNat
          else (Spec.scan exGridB).getD k 0 :=
  ⟨by decide, embed_postcondition exGridB exBits (by decide) (by decide)⟩

/-! ## The byte loop of `extractChunk` -/

theorem stoi2_eight (b0 b1 b2 b3 b4 b5 b6 b7 : Bool) :
    Decode.stoi2 [b0, b1, b2, b3, b4, b5, b6, b7]
      = 128 * b0.toNat + 64 * b1.toNat + 32 * b2.toNat + 16 * b3.toNat
        + 8 * b4.toNat + 4 * b5.toNat + 2 * b6.toNat + b7.toNat := by
  simp only [Decode.stoi2, List.foldl_cons, List.foldl_nil]
  omega

theorem groupBytes_short (t : Bits)
    (h : ∀ (b0 b1 b2 b3 b4 b5 b6 b7 : Bool) (rest : List Bool),
      t = b0 :: b1 :: b2 :: b3 :: b4 :: b5 :: b6 :: b7 :: rest → False) :
    Spec.groupBytes t = [] ∧ t.length < 8 ∧ ∀ out, Decode.decodeBytes t out = out := by
  rcases t with _ | ⟨b0, _ | ⟨b1, _ | ⟨b2, _ | ⟨b3, _ | ⟨b4, _ | ⟨b5, _ | ⟨b6, _ | ⟨b7, rest⟩⟩⟩⟩⟩⟩⟩⟩
  all_goals first
    | exact absurd rfl (fun e => h _ _ _ _ _ _ _ _ _ e)
    | exact ⟨rfl, by simp, fun out => rfl⟩

/-- The bit loop of `extractChunk` is the byte loop on the grouped bytes. -/
theorem decodeBytes_eq_cutLoop (bits : Bits) (out : Bytes) :
    Decode.decodeBytes bits out = Decode.cutLoop (Spec.groupBytes bits) out := by
  induction bits, out using Decode.decodeBytes.induct with
  | case1 b0 b1 b2 b3 b4 b5 b6 b7 rest out out1 h =>
    rw [Decode.decodeBytes, Spec.groupBytes, Decode.cutLoop, ← stoi2_eight]
    rw [if_pos h, if_pos h]
  | case2 b0 b1 b2 b3 b4 b5 b6 b7 rest out out1 h ih =>
    rw [Decode.decodeBytes, Spec.groupBytes, Decode.cutLoop, ← stoi2_eight]
    rw [if_neg h, if_neg h]
    exact ih
  | case3 t out h =>
    obtain ⟨hg, _, hd⟩ := groupBytes_short t h
    rw [hg, hd out]
    rfl

theorem groupBytes_length (bits : Bits) : (Spec.groupBytes bits).length = bits.length / 8 := by
  induction bits using Spec.groupBytes.induct with
  | case1 b0 b1 b2 b3 b4 b5 b6 b7 rest ih =>
    rw [Spec.groupBytes, List.length_cons, ih]
    simp only [List.length_cons]
    omega
  | case2 t h =>
    obtain ⟨hg, hl, _⟩ := groupBytes_short t h
    rw [hg, List.length_nil]
    omega

set_option maxRecDepth 100000 in
theorem groupBytes_toBinary (c : Byte) (X : Bits) :
    Spec.groupBytes (Encode.toBinary c ++ X) = c :: Spec.groupBytes X := by
  have h : Encode.toBinary c ++ X =
      ((c.val >>> 7) &&& 1 != 0) :: ((c.val >>> 6) &&& 1 != 0) :: ((c.val >>> 5) &&& 1 != 0)
        :: ((c.val >>> 4) &&& 1 != 0) :: ((c.val >>> 3) &&& 1 != 0) :: ((c.val >>> 2) &&& 1 != 0)
        :: ((c.val >>> 1) &&& 1 != 0) :: ((c.val >>> 0) &&& 1 != 0) :: X := rfl
  rw [h, Spec.groupBytes, ← stoi2_eight]
  congr 1
  have h2 : Decode.stoi2 [((c.val >>> 7) &&& 1 != 0), ((c.val >>> 6) &&& 1 != 0),
      ((c.val >>> 5) &&& 1 != 0), ((c.val >>> 4) &&& 1 != 0), ((c.val >>> 3) &&& 1 != 0),
      ((c.val >>> 2) &&& 1 != 0), ((c.val >>> 1) &&& 1 != 0), ((c.val >>> 0) &&& 1 != 0)]
      = c.val := stoi2_toBinary c
  rw [h2, toChar_val]

/-- Grouping the bits of a byte string followed by other bits gives the
byte string back, followed by the bytes of the other bits. -/
theorem groupBytes_toBinaryStr (t : Bytes) (X : Bits) :
    Spec.groupBytes (Encode.toBinaryStr t ++ X) = t ++ Spec.groupBytes X := by
  induction t with
  | nil => rfl
  | cons c t ih =>
    rw [toBinaryStr_cons, List.append_assoc, groupBytes_toBinary, ih]
    rfl

/-! ## Where the byte loop stops -/

theorem contains_iff_take (B : Bytes) :
    hashes <:+: B ↔ ∃ k, k ≤ B.length ∧ hashes <:+ B.take k := by
  constructor
  · rintro ⟨s, u, rfl⟩
    refine ⟨(s ++ hashes).length, by simp, ?_⟩
    rw [List.take_left' rfl]
    exact List.suffix_append s hashes
  · rintro ⟨k, _, h⟩
    exact h.isInfix.trans (List.take_prefix k B).isInfix

/-- The byte loop returns `out` followed by a prefix of `B`: the first that
makes the text end with `"###"`, or all of `B` when none does. -/
theorem cutLoop_spec (B : Bytes) :
    ∀ out : Bytes, ∃ j, j ≤ B.length ∧ Decode.cutLoop B out = out ++ B.take j ∧
      (∀ k, 1 ≤ k → k < j → ¬ hashes <:+ out ++ B.take k) ∧
      ((1 ≤ j ∧ hashes <:+ out ++ B.take j) ∨
        (j = B.length ∧ ∀ k, 1 ≤ k → k ≤ B.length → ¬ hashes <:+ out ++ B.take k)) := by
  induction B with
  | nil =>
    intro out
    exact ⟨0, by simp, by simp [Decode.cutLoop], fun k h1 h2 => by omega,
      Or.inr ⟨rfl, fun k h1 h2 => by simp at h2; omega⟩⟩
  | cons b r ih =>
    intro out
    rw [Decode.cutLoop]
    by_cases h : Decode.endsWithHashes (out ++ [b]) = true
    · rw [if_pos h]
      refine ⟨1, by simp, by simp, fun k h1 h2 => by omega, Or.inl ⟨le_refl 1, ?_⟩⟩
      simpa using (endsWithHashes_iff _).mp h
    · rw [if_neg h]
      obtain ⟨j, hj, hrun, hbefore, hend⟩ := ih (out ++ [b])
      have hk1 : ¬ hashes <:+ out ++ [b] := fun hs => h ((endsWithHashes_iff _).mpr hs)
      have hshift : ∀ k, out ++ (b :: r).take (k + 1) = out ++ [b] ++ r.take k := by
        intro k; simp
      refine ⟨j + 1, by simpa using hj, by rw [hrun, hshift], ?_, ?_⟩
      · intro k h1 h2
        obtain ⟨k', rfl⟩ : ∃ k', k = k' + 1 := ⟨k - 1, by omega⟩
        rw [hshift]
        rcases Nat.eq_zero_or_pos k' with rfl | hpos
        · simpa using hk1
        · exact hbefore k' hpos (by omega)
      · rcases hend with ⟨h1, hs⟩ | ⟨hjl, hall⟩
        · exact Or.inl ⟨by omega, by rw [hshift]; exact hs⟩
        · refine Or.inr ⟨by simp [hjl], fun k h1 h2 => ?_⟩
          obtain ⟨k', rfl⟩ : ∃ k', k = k' + 1 := ⟨k - 1, by omega⟩
          rw [hshift]
          rcases Nat.eq_zero_or_pos k' with rfl | hpos
          · simpa using hk1
          · exact hall k' hpos (by simpa using h2)

/-- From the empty text, the byte loop on a `B` that contains `"###"` returns
the shortest prefix of `B` that ends with it. -/
theorem cutLoop_first (B : Bytes) (hB : hashes <:+: B) :
    Spec.IsFirstStop B (Decode.cutLoop B []) := by
  obtain ⟨j, hj, hrun, hbefore, hend⟩ := cutLoop_spec B []
  simp only [List.nil_append] at hrun hbefore hend
  rw [hrun]
  obtain ⟨k0, hk0, hs0⟩ := (contains_iff_take B).mp hB
  have hk0pos : 1 ≤ k0 := by
    rcases Nat.eq_zero_or_pos k0 with rfl | h
    · exact absurd hs0 (by simp; decide)
    · exact h
  rcases hend with ⟨_, hs⟩ | ⟨_, hall⟩
  · refine ⟨List.take_prefix j B, hs, fun R' hp hsR => ?_⟩
    rw [List.length_take, Nat.min_eq_left hj]
    by_contra hlt
    have hR' : R' = B.take R'.length := List.prefix_iff_eq_take.mp hp
    have hpos : 1 ≤ R'.length := by
      have := hsR.length_le
      simp only [show hashes.length = 3 from rfl] at this
      omega
    exact hbefore R'.length hpos (by omega) (by rw [← hR']; exact hsR)
  · exact absurd hs0 (hall k0 hk0pos hk0)

/-- From the empty text, the byte loop on a `B` without `"###"` returns `B`. -/
theorem cutLoop_all (B : Bytes) (hB : ¬ hashes <:+: B) : Decode.cutLoop B [] = B := by
  obtain ⟨j, hj, hrun, _, hend⟩ := cutLoop_spec B []
  simp only [List.nil_append] at hrun hend
  rcases hend with ⟨_, hs⟩ | ⟨hjl, _⟩
  · exact absurd ((contains_iff_take B).mpr ⟨j, hj, hs⟩) hB
  · rw [hrun, hjl, List.take_length]

theorem lsb_eq (p : Nat) : (p &&& 1 != 0) = Spec.lsb p := by
  unfold Spec.lsb
  rw [Nat.and_one_is_mod]
  rcases Nat.mod_two_eq_zero_or_one p with h | h <;> simp [h]

theorem extractChunk_eq (img : Mat) (hwf : img.WF) :
    Decode.extractChunk img = Decode.cutLoop (Spec.streamBytes img) [] := by
  unfold Decode.extractChunk Spec.streamBytes
  rw [decodeBytes_eq_cutLoop, lsbBits_eq img hwf, scan_eq_data img hwf]
  congr 2
  exact List.map_congr_left (fun p _ => lsb_eq p)

/-- C16 (extract definition).  For a grid of `rows * cols` three-channel
pixels, let `B` be its channel LSBs in row-major, channel-minor order grouped
MSB-first into complete bytes; `B` has `floor(rows * cols * 3 / 8)` bytes,
and `extractChunk` returns the shortest prefix of `B` that ends with `"###"`
when `B` contains `"###"`, and all of `B` otherwise. -/
theorem extract_definition (img : Mat) (hwf : img.WF) :
    (Spec.streamBytes img).length = img.rows * img.cols * 3 / 8 ∧
    (hashes <:+: Spec.streamBytes img →
      Spec.IsFirstStop (Spec.streamBytes img) (Decode.extractChunk img)) ∧
    (¬ hashes <:+: Spec.streamBytes img → Decode.extractChunk img = Spec.streamBytes img) := by
  refine ⟨?_, fun h => ?_, fun h => ?_⟩
  · unfold Spec.streamBytes
    rw [groupBytes_length, List.length_map, scan_eq_data img hwf, hwf]
  · rw [extractChunk_eq img hwf]; exact cutLoop_first _ h
  · rw [extractChunk_eq img hwf]; exact cutLoop_all _ h

set_option maxRecDepth 100000 in
/-- C16 on the 3 x 7 example image, whose 63 LSBs hold the seven bytes
`"5seq###"` and seven more bits. -/
theorem extract_definition_witness :
    exStray.WF ∧
    (Spec.streamBytes exStray).length = exStray.rows * exStray.cols * 3 / 8 ∧
    (hashes <:+: Spec.streamBytes exStray →
      Spec.IsFirstStop (Spec.streamBytes exStray) (Decode.extractChunk exStray)) ∧
    (¬ hashes <:+: Spec.streamBytes exStray →
      Decode.extractChunk exStray = Spec.streamBytes exStray) :=
  ⟨by decide, extract_definition exStray (by decide)⟩

/-! ## Embedding a text that contains the terminator -/

/-- What `extractChunk` returns after `embedBits` of the bits of `t`: the
byte loop run on `t` followed by the bytes of the untouched LSBs. -/
theorem extractChunk_embedded (img : Mat) (t : Bytes) (hwf : img.WF)
    (hcap : 8 * t.length ≤ img.rows * img.cols * 3) :
    ∃ B' : Bytes, Decode.extractChunk (Encode.embedBits img (Encode.toBinaryStr t))
      = Decode.cutLoop (t ++ B') [] := by
  refine ⟨Spec.groupBytes ((img.data.drop (Encode.toBinaryStr t).length).map
    (fun p => p &&& 1 != 0)), ?_⟩
  unfold Decode.extractChunk
  rw [lsbBits_embedBits img _ hwf (by rw [toBinaryStr_length]; exact hcap),
    decodeBytes_eq_cutLoop, groupBytes_toBinaryStr]

/-- The shortest terminated prefix of `t ++ B'` is that of `t` when `t`
contains the terminator. -/
theorem isFirstStop_left (t B' R : Bytes) (h : Spec.IsFirstStop (t ++ B') R)
    (ht : hashes <:+: t) : Spec.IsFirstStop t R := by
  obtain ⟨hpre, hend, hmin⟩ := h
  obtain ⟨k, hk, hs⟩ := (contains_iff_take t).mp ht
  have hlen : R.length ≤ t.length := by
    have := hmin (t.take k) ((List.take_prefix k t).trans (List.prefix_append t B')) hs
    rw [List.length_take] at this
    omega
  exact ⟨List.prefix_of_prefix_length_le hpre (List.prefix_append t B') hlen, hend,
    fun R' hp hsR => hmin R' (hp.trans (List.prefix_append t B')) hsR⟩

theorem extractChunk_embedded_first (img : Mat) (t : Bytes) (hwf : img.WF)
    (hcap : 8 * t.length ≤ img.rows * img.cols * 3) (ht : hashes <:+: t) :
    Spec.IsFirstStop t (Decode.extractChunk (Encode.embedBits img (Encode.toBinaryStr t))) := by
  obtain ⟨B', hB'⟩ := extractChunk_embedded img t hwf hcap
  rw [hB']
  exact isFirstStop_left t B' _
    (cutLoop_first _ (ht.trans (List.prefix_append t B').isInfix)) ht

/-- C18 (pixel-channel round trip).  For a byte string `t` that contains
`"###"` and a grid with at least `8 * len(t)` channels, whatever its pixel
values, `extractChunk` after `embedBits` of the bits of `t` returns the
prefix of `t` ending at the first occurrence of `"###"` (the shortest prefix
that ends with it); it returns `t` itself when `t` ends with `"###"` and has
no earlier occurrence. -/
theorem pixel_roundtrip (img : Mat) (t : Bytes) (hwf : img.WF)
    (hcap : 8 * t.length ≤ img.rows * img.cols * 3) (ht : hashes <:+: t) :
    Spec.IsFirstStop t (Decode.extractChunk (Encode.embedBits img (Encode.toBinaryStr t))) ∧
    (hashes <:+ t → ¬ hashes <:+: t.dropLast →
      Decode.extractChunk (Encode.embedBits img (Encode.toBinaryStr t)) = t) :=
  ⟨extractChunk_embedded_first img t hwf hcap ht,
    fun hend hfirst => extractChunk_embedBits img t hwf hcap hend hfirst⟩

/-- C18 on the 6 x 6 example image with the text `"a###b###"`. -/
theorem pixel_roundtrip_witness :
    (exGridB.WF ∧ 8 * (lit ("a###b###")).length ≤ exGridB.rows * exGridB.cols * 3 ∧
      hashes <:+: lit ("a###b###")) ∧
    Spec.IsFirstStop (lit ("a###b###"))
      (Decode.extractChunk (Encode.embedBits exGridB (Encode.toBinaryStr (lit ("a###b###"))))) ∧
    (hashes <:+ lit ("a###b###") → ¬ hashes <:+: (lit ("a###b###")).dropLast →
      Decode.extractChunk (Encode.embedBits exGridB (Encode.toBinaryStr (lit ("a###b###"))))
        = lit ("a###b###")) :=
  ⟨by decide, pixel_roundtrip exGridB (lit ("a###b###")) (by decide) (by decide) (by decide)⟩

/-! ## Tag parsing by cases -/

theorem parseTag_short (E : Bytes) (h : E.length < 7) : Decode.parseTag E = .skip := by
  unfold Decode.parseTag
  rw [if_pos h]

theorem parseTag_nonzero (E : Bytes) (h7 : 7 ≤ E.length) (hs : Decode.seqIndex E ≠ 0) :
    Decode.parseTag E = .chunk (Decode.seqIndex E) none (E.take (E.length - 7)) := by
  unfold Decode.parseTag
  rw [if_neg (by omega)]
  simp only []
  have hs' : ¬ (Decode.charToInt (E.getD (E.length - 7) 0) - 48 = 0) := hs
  rw [if_neg hs']
  rfl

theorem parseTag_zero (E : Bytes) (h7 : 7 ≤ E.length) (hs : Decode.seqIndex E = 0) :
    Decode.parseTag E =
      match Decode.find (E.take (E.length - 7)) delim 0,
        Decode.find (E.take (E.length - 7)) delim
          (match Decode.find (E.take (E.length - 7)) delim 0 with
            | some f => f + 4
            | none => 3) with
      | some f, some s =>
          .chunk 0 (some (Decode.substr (E.take (E.length - 7)) (f + 4) (s - (f + 4))))
            ((E.take (E.length - 7)).take f)
      | _, _ => .malformed := by
  unfold Decode.parseTag
  rw [if_neg (by omega)]
  simp only []
  have e : Decode.charToInt (E.getD (E.length - 7) 0) - 48 = 0 := hs
  rw [if_pos e]
  simp only [e]
  rfl

/-- The content that tag parsing reads is at least seven bytes shorter than
the stream, and a password is read exactly for sequence number 0. -/
theorem parseTag_chunk (E : Bytes) (seq : Int) (pw : Option Bytes) (content : Bytes)
    (h : Decode.parseTag E = .chunk seq pw content) :
    7 ≤ E.length ∧ seq = Decode.seqIndex E ∧ content.length + 7 ≤ E.length ∧
      (pw = none ↔ seq ≠ 0) := by
  by_cases h7 : E.length < 7
  · rw [parseTag_short E h7] at h; cases h
  · have h7' : 7 ≤ E.length := by omega
    by_cases hs : Decode.seqIndex E = 0
    · rw [parseTag_zero E h7' hs] at h
      split at h
      · injection h with h1 h2 h3
        subst h1 h2 h3
        refine ⟨h7', hs.symm, ?_, by simp⟩
        simp only [List.length_take]
        omega
      · cases h
    · rw [parseTag_nonzero E h7' hs] at h
      injection h with h1 h2 h3
      subst h1 h2 h3
      refine ⟨h7', rfl, ?_, by simp [hs]⟩
      simp only [List.length_take]
      omega

/-- A successful step of the decoder either skips a short stream or stores
the parsed content at the parsed index, which is inside the table. -/
theorem processChunk_ok (pwd : Bytes) (pieces pieces1 : List Bytes) (E : Bytes)
    (h : Decode.processChunk pwd pieces E = .ok pieces1) :
    (E.length < 7 ∧ pieces1 = pieces) ∨
    (7 ≤ E.length ∧ ∃ (i : Nat) (pw : Option Bytes) (content : Bytes),
      Decode.parseTag E = .chunk (i : Int) pw content ∧ i < pieces.length ∧
      pieces1 = pieces.set i content) := by
  unfold Decode.processChunk at h
  have hstore : ∀ (seq : Int) (pw : Option Bytes) (content : Bytes),
      Decode.parseTag E = .chunk seq pw content →
      Decode.store pieces seq content = .ok pieces1 →
      7 ≤ E.length ∧ ∃ (i : Nat) (pw : Option Bytes) (content : Bytes),
        Decode.parseTag E = .chunk (i : Int) pw content ∧ i < pieces.length ∧
        pieces1 = pieces.set i content := by
    intro seq pw content hp hst
    unfold Decode.store at hst
    split at hst
    · rename_i hr
      injection hst with hst
      obtain ⟨i, rfl⟩ := Int.eq_ofNat_of_zero_le hr.1
      exact ⟨(parseTag_chunk E _ pw content hp).1, i, pw, content, hp, by omega,
        by rw [← hst, Int.toNat_ofNat]⟩
    · cases hst
  split at h
  · rename_i hp
    injection h with h
    refine Or.inl ⟨?_, h.symm⟩
    by_contra h7
    by_cases hs : Decode.seqIndex E = 0
    · rw [parseTag_zero E (by omega) hs] at hp
      split at hp <;> cases hp
    · rw [parseTag_nonzero E (by omega) hs] at hp
      cases hp
  · cases h
  · rename_i seq pwdInside content hp
    split at h
    · cases h
    · exact Or.inr (hstore seq _ content hp h)
  · rename_i seq content hp
    exact Or.inr (hstore seq _ content hp h)

/-! ## A payload that contains the terminator -/

theorem slice_one (P : Bytes) : Spec.slice P 1 0 = P := by
  unfold Spec.slice Spec.range Spec.ceilDiv
  simp only [Nat.add_sub_cancel, Nat.div_one, Nat.zero_mul, Nat.zero_add, Nat.one_mul,
    Nat.min_self, List.take_length, List.drop_zero]
  split
  · rfl
  · rename_i h
    have : P.length = 0 := by omega
    exact (List.length_eq_zero.mp this).symm

/-- The encoder run on a single image large enough for the tagged payload. -/
theorem main_single (P pwd : Bytes) (img : Mat)
    (hcap : 8 * (Spec.taggedChunk P 1 pwd 0).length ≤ img.rows * img.cols * 3) :
    img.empty = false ∧
    Encode.main P [img] pwd pwd
      = ⟨.completed, [Encode.embedBits img (Encode.toBinaryStr (Spec.taggedChunk P 1 pwd 0))]⟩ := by
  have hne : img.empty = false := by
    have h2 := taggedChunk_length P pwd 1 0
    unfold Mat.empty
    rw [beq_eq_false_iff_ne]
    intro h0
    rw [h0] at hcap
    omega
  have hget := splitAndTag_getD P pwd 1 0 (by decide) (by decide)
  refine ⟨hne, ?_⟩
  unfold Encode.main
  rw [if_neg (by simp), if_neg (by simp), if_neg (by simp),
    encodeLoop_ok _ [img] 0 [] (fun k hk => by
      have hk0 : k = 0 := by simpa using hk
      subst hk0
      simp only [List.getElem_cons_zero, Nat.add_zero, List.length_singleton]
      exact ⟨hne, by rw [hget, toBinaryStr_length]; exact hcap⟩)]
  simp only [List.length_singleton, List.nil_append] at hget ⊢
  rw [show List.range' 0 1 = [0] from rfl, List.zipWith_cons_cons, hget]
  rfl

/-- The decoder run on one readable image never returns a text that is at
least as long as the image's stream and not empty. -/
theorem main_single_short (pwd P : Bytes) (out : Mat) (hP : P ≠ [])
    (hlen : (Decode.extractChunk out).length ≤ P.length) :
    Decode.main [out] pwd ≠ .ok P := by
  intro h
  unfold Decode.main at h
  rw [if_neg (by simp)] at h
  simp only [List.length_singleton, List.replicate_one, Decode.decodeLoop] at h
  split at h
  · rename_i pieces hrun
    split at hrun
    · cases hrun
    · split at hrun
      · rename_i pieces1 hstep
        injection hrun with hrun
        injection h with h
        rw [foldl_append_flatten, List.nil_append, ← hrun] at h
        rcases processChunk_ok pwd _ _ _ hstep with ⟨_, rfl⟩ | ⟨_, i, pw, content, hp, hi, rfl⟩
        · exact hP (by simpa using h.symm)
        · have hi0 : i = 0 := by simpa using hi
          subst hi0
          have hc := (parseTag_chunk _ _ _ _ hp).2.2.1
          have : content = P := by simpa using h
          rw [this] at hc
          omega
      · cases hrun
  · cases h

/-- C11 (terminator collision).  For a payload `P` that contains `"###"`,
any password and a single image with room for the whole tagged chunk, the
encoder completes; the stream extracted from the image it writes is the
prefix of `P` ending at the first occurrence of `"###"`, not the tagged
chunk; and the decoder run on that image with the same password does not
return `P`. -/
theorem terminator_collision (P pwd : Bytes) (img : Mat) (hP : hashes <:+: P) (hwf : img.WF)
    (hcap : 8 * (Spec.taggedChunk P 1 pwd 0).length ≤ img.rows * img.cols * 3) :
    Encode.main P [img] pwd pwd
      = ⟨.completed, [Encode.embedBits img (Encode.toBinaryStr (Spec.taggedChunk P 1 pwd 0))]⟩ ∧
    Spec.IsFirstStop P (Decode.extractChunk
      (Encode.embedBits img (Encode.toBinaryStr (Spec.taggedChunk P 1 pwd 0)))) ∧
    Decode.extractChunk (Encode.embedBits img (Encode.toBinaryStr (Spec.taggedChunk P 1 pwd 0)))
      ≠ Spec.taggedChunk P 1 pwd 0 ∧
    Decode.main [Encode.embedBits img (Encode.toBinaryStr (Spec.taggedChunk P 1 pwd 0))] pwd
      ≠ .ok P := by
  have htag : Spec.taggedChunk P 1 pwd 0 = P ++ Spec.tag 0 pwd := by
    unfold Spec.taggedChunk
    rw [slice_one]
  have hfirst : Spec.IsFirstStop P (Decode.extractChunk
      (Encode.embedBits img (Encode.toBinaryStr (Spec.taggedChunk P 1 pwd 0)))) := by
    have h1 := extractChunk_embedded_first img (Spec.taggedChunk P 1 pwd 0) hwf hcap
      (by rw [htag]; exact hP.trans (List.prefix_append _ _).isInfix)
    rw [htag] at h1 ⊢
    exact isFirstStop_left P _ _ h1 hP
  have hlen := hfirst.1.length_le
  have hPne : P ≠ [] := by
    rintro rfl
    exact absurd hP (by decide)
  refine ⟨(main_single P pwd img hcap).2, hfirst, ?_, main_single_short pwd P _ hPne hlen⟩
  intro h
  rw [h, htag, List.length_append] at hlen
  have := taggedChunk_length P pwd 1 0
  have h7 : 0 < (Spec.tag 0 pwd).length := by
    unfold Spec.tag
    simp [show (lit ("0seq###")).length = 7 from rfl]
  omega

set_option maxRecDepth 100000 in
/-- C11 on the 8 x 8 example image with payload `"ab###cd"` and password `"x"`. -/
theorem terminator_collision_witness :
    (hashes <:+: lit ("ab###cd") ∧ exGridA.WF ∧
      8 * (Spec.taggedChunk (lit ("ab###cd")) 1 exPwd 0).length
        ≤ exGridA.rows * exGridA.cols * 3) ∧
    Encode.main (lit ("ab###cd")) [exGridA] exPwd exPwd
      = ⟨.completed, [Encode.embedBits exGridA
          (Encode.toBinaryStr (Spec.taggedChunk (lit ("ab###cd")) 1 exPwd 0))]⟩ ∧
    Spec.IsFirstStop (lit ("ab###cd")) (Decode.extractChunk
      (Encode.embedBits exGridA
        (Encode.toBinaryStr (Spec.taggedChunk (lit ("ab###cd")) 1 exPwd 0)))) ∧
    Decode.extractChunk (Encode.embedBits exGridA
        (Encode.toBinaryStr (Spec.taggedChunk (lit ("ab###cd")) 1 exPwd 0)))
      ≠ Spec.taggedChunk (lit ("ab###cd")) 1 exPwd 0 ∧
    Decode.main [Encode.embedBits exGridA
        (Encode.toBinaryStr (Spec.taggedChunk (lit ("ab###cd")) 1 exPwd 0))] exPwd
      ≠ .ok (lit ("ab###cd")) :=
  ⟨by decide, terminator_collision (lit ("ab###cd")) exPwd exGridA (by decide) (by decide)
    (by decide)⟩

/-! ## What `std::string::find` returns -/

theorem findAt_spec (x : Bytes) (hx : x ≠ []) (s : Bytes) :
    ∀ i : Nat, match Decode.findAt x s i with
      | none => ∀ p, ¬ Spec.OccursAt x s p
      | some j => ∃ p, j = i + p ∧ Spec.OccursAt x s p ∧ ∀ q, q < p → ¬ Spec.OccursAt x s q := by
  induction s with
  | nil =>
    intro i
    rw [Decode.findAt, if_neg hx]
    intro p h
    unfold Spec.OccursAt at h
    rw [List.drop_nil] at h
    exact hx (List.prefix_nil.mp h)
  | cons c cs ih =>
    intro i
    rw [Decode.findAt]
    by_cases h : x <+: c :: cs
    · rw [if_pos h]
      exact ⟨0, rfl, h, fun q hq => by omega⟩
    · rw [if_neg h]
      have := ih (i + 1)
      split at this
      · intro p
        cases p with
        | zero => exact h
        | succ p => exact this p
      · obtain ⟨p, hj, hocc, hmin⟩ := this
        refine ⟨p + 1, by omega, hocc, fun q hq => ?_⟩
        cases q with
        | zero => exact h
        | succ q => exact hmin q (by omega)

/-- `s.find(x, pos)` is the least position from `pos` on where `x` occurs,
and `npos` when there is none. -/
theorem find_spec (x : Bytes) (hx : x ≠ []) (s : Bytes) (pos : Nat) :
    match Decode.find s x pos with
      | none => ∀ p, pos ≤ p → ¬ Spec.OccursAt x s p
      | some j => pos ≤ j ∧ Spec.OccursAt x s j ∧
          ∀ q, pos ≤ q → q < j → ¬ Spec.OccursAt x s q := by
  unfold Decode.find
  by_cases h : s.length < pos
  · rw [if_pos h]
    intro p hp hocc
    unfold Spec.OccursAt at hocc
    rw [List.drop_of_length_le (by omega)] at hocc
    exact hx (List.prefix_nil.mp hocc)
  · rw [if_neg h]
    have := findAt_spec x hx (s.drop pos) pos
    have hdrop : ∀ p, Spec.OccursAt x (s.drop pos) p ↔ Spec.OccursAt x s (pos + p) := by
      intro p
      unfold Spec.OccursAt
      rw [List.drop_drop, Nat.add_comm]
    split at this
    · intro p hp hocc
      apply this (p - pos)
      rw [hdrop, Nat.add_sub_cancel' hp]
      exact hocc
    · obtain ⟨p, hj, hocc, hmin⟩ := this
      subst hj
      refine ⟨by omega, (hdrop p).mp hocc, fun q hq1 hq2 hoq => ?_⟩
      apply hmin (q - pos) (by omega)
      rw [hdrop, Nat.add_sub_cancel' hq1]
      exact hoq

/-- Two occurrences of the delimiter cannot overlap. -/
theorem delim_no_overlap (R : Bytes) (p d : Nat) (h : Spec.OccursAt delim R p)
    (h1 : 1 ≤ d) (h3 : d ≤ 3) : ¬ Spec.OccursAt delim R (p + d) := by
  unfold Spec.OccursAt at h ⊢
  obtain ⟨u, hu⟩ := h
  rw [← List.drop_drop, ← hu]
  have hd : delim = [64, 37, 35, 47] := rfl
  rw [hd]
  intro hpre
  interval_cases d <;> simp [List.cons_prefix_cons] at hpre

theorem seqIndex_zero (chunk : Bytes) (h0 : chunk.getD (chunk.length - 7) 0 = 48) :
    Decode.seqIndex chunk = 0 := by
  unfold Decode.seqIndex
  rw [h0]
  decide

theorem substr_eq_range (R : Bytes) (a b : Nat) :
    Decode.substr R a (b - a) = Spec.range R a b := by
  unfold Decode.substr Spec.range
  rw [List.drop_take]

/-- The decoder's step never reports a malformed header unless tag parsing
does. -/
theorem processChunk_malformed (pwd : Bytes) (pieces : List Bytes) (chunk : Bytes) :
    Decode.processChunk pwd pieces chunk = .fail .malformedHeader
      ↔ Decode.parseTag chunk = .malformed := by
  unfold Decode.processChunk
  have hstore : ∀ seq content, Decode.store pieces seq content ≠ .fail .malformedHeader := by
    intro seq content
    unfold Decode.store
    split <;> simp
  constructor
  · intro h
    split at h
    · cases h
    · assumption
    · split at h
      · cases h
      · exact absurd h (hstore _ _)
    · exact absurd h (hstore _ _)
  · intro h
    rw [h]

/-- C12 (malformed header).  For a stream of at least 7 bytes whose
7th-from-last byte is `'0'`, with `R` the stream without its last 7 bytes:
the decoder's step fails with the malformed-header error exactly when `R`
does not contain two non-overlapping occurrences of `"@%#/"`; when it does,
with `p1` the first occurrence and `p2` the next occurrence after it, the
password read is `R[p1+4 : p2]`, the content is `R[0 : p1]`, and the step is
the password check followed by the store of that content at index 0. -/
theorem malformed_header (chunk pwd : Bytes) (pieces : List Bytes) (R : Bytes)
    (h7 : 7 ≤ chunk.length) (h0 : chunk.getD (chunk.length - 7) 0 = 48)
    (hR : R = chunk.take (chunk.length - 7)) :
    (Decode.processChunk pwd pieces chunk = .fail .malformedHeader ↔ ¬ Spec.TwoDelims R) ∧
    (Spec.TwoDelims R →
      ∃ p1 p2,
        (Spec.OccursAt delim R p1 ∧ ∀ q, q < p1 → ¬ Spec.OccursAt delim R q) ∧
        (p1 < p2 ∧ p1 + 4 ≤ p2 ∧ Spec.OccursAt delim R p2 ∧
          ∀ q, p1 < q → q < p2 → ¬ Spec.OccursAt delim R q) ∧
        Decode.parseTag chunk
          = .chunk 0 (some (Spec.range R (p1 + 4) p2)) (Spec.range R 0 p1) ∧
        Decode.processChunk pwd pieces chunk
          = if Spec.range R (p1 + 4) p2 ≠ pwd then .fail .passwordInvalid
            else Decode.store pieces 0 (Spec.range R 0 p1)) := by
  subst hR
  have hdn : delim ≠ [] := by decide
  have hparse := parseTag_zero chunk h7 (seqIndex_zero chunk h0)
  have hf1 := find_spec delim hdn (chunk.take (chunk.length - 7)) 0
  rw [processChunk_malformed]
  cases hfirst : Decode.find (chunk.take (chunk.length - 7)) delim 0 with
  | none =>
    rw [hfirst] at hparse hf1
    simp only [] at hparse hf1
    have hno : ¬ Spec.TwoDelims (chunk.take (chunk.length - 7)) := by
      rintro ⟨a, b, ha, _, _⟩
      exact hf1 a (Nat.zero_le a) ha
    exact ⟨⟨fun _ => hno, fun _ => hparse⟩, fun h => absurd h hno⟩
  | some p1 =>
    rw [hfirst] at hparse hf1
    simp only [] at hparse hf1
    obtain ⟨_, hocc1, hmin1⟩ := hf1
    have hf2 := find_spec delim hdn (chunk.take (chunk.length - 7)) (p1 + 4)
    cases hsecond : Decode.find (chunk.take (chunk.length - 7)) delim (p1 + 4) with
    | none =>
      rw [hsecond] at hparse hf2
      simp only [] at hparse hf2
      have hno : ¬ Spec.TwoDelims (chunk.take (chunk.length - 7)) := by
        rintro ⟨a, b, ha, hb, hab⟩
        have hpa : p1 ≤ a := by
          by_contra hlt
          exact hmin1 a (Nat.zero_le a) (by omega) ha
        exact hf2 b (by omega) hb
      exact ⟨⟨fun _ => hno, fun _ => hparse⟩, fun h => absurd h hno⟩
    | some p2 =>
      rw [hsecond] at hparse hf2
      simp only [] at hparse hf2
      obtain ⟨hle, hocc2, hmin2⟩ := hf2
      have htwo : Spec.TwoDelims (chunk.take (chunk.length - 7)) := ⟨p1, p2, hocc1, hocc2, hle⟩
      have hp : Decode.parseTag chunk
          = .chunk 0 (some (Spec.range (chunk.take (chunk.length - 7)) (p1 + 4) p2))
              (Spec.range (chunk.take (chunk.length - 7)) 0 p1) := by
        rw [hparse, substr_eq_range]
        rfl
      refine ⟨⟨fun h => ?_, fun h => absurd htwo h⟩, fun _ => ⟨p1, p2,
        ⟨hocc1, fun q hq => hmin1 q (Nat.zero_le q) hq⟩, ⟨by omega, hle, hocc2, ?_⟩, hp, ?_⟩⟩
      · rw [hp] at h; cases h
      · intro q hq1 hq2
        by_cases hq : p1 + 4 ≤ q
        · exact hmin2 q hq hq2
        · have := delim_no_overlap _ p1 (q - p1) hocc1 (by omega) (by omega)
          rwa [Nat.add_sub_cancel' (by omega)] at this
      · unfold Decode.processChunk
        rw [hp]

/-- C12 on the stream `"A@%#/x@%#/0seq###"`, where `R` is `"A@%#/x@%#/"`. -/
theorem malformed_header_witness :
    (7 ≤ (lit ("A@%#/x@%#/0seq###")).length ∧
      (lit ("A@%#/x@%#/0seq###")).getD ((lit ("A@%#/x@%#/0seq###")).length - 7) 0 = 48 ∧
      lit ("A@%#/x@%#/")
        = (lit ("A@%#/x@%#/0seq###")).take ((lit ("A@%#/x@%#/0seq###")).length - 7)) ∧
    (Decode.processChunk exPwd [[]] (lit ("A@%#/x@%#/0seq###")) = .fail .malformedHeader
      ↔ ¬ Spec.TwoDelims (lit ("A@%#/x@%#/"))) ∧
    (Spec.TwoDelims (lit ("A@%#/x@%#/")) →
      ∃ p1 p2,
        (Spec.OccursAt delim (lit ("A@%#/x@%#/")) p1 ∧
          ∀ q, q < p1 → ¬ Spec.OccursAt delim (lit ("A@%#/x@%#/")) q) ∧
        (p1 < p2 ∧ p1 + 4 ≤ p2 ∧ Spec.OccursAt delim (lit ("A@%#/x@%#/")) p2 ∧
          ∀ q, p1 < q → q < p2 → ¬ Spec.OccursAt delim (lit ("A@%#/x@%#/")) q) ∧
        Decode.parseTag (lit ("A@%#/x@%#/0seq###"))
          = .chunk 0 (some (Spec.range (lit ("A@%#/x@%#/")) (p1 + 4) p2))
              (Spec.range (lit ("A@%#/x@%#/")) 0 p1) ∧
        Decode.processChunk exPwd [[]] (lit ("A@%#/x@%#/0seq###"))
          = if Spec.range (lit ("A@%#/x@%#/")) (p1 + 4) p2 ≠ exPwd then .fail .passwordInvalid
            else Decode.store [[]] 0 (Spec.range (lit ("A@%#/x@%#/")) 0 p1)) :=
  ⟨by decide, malformed_header (lit ("A@%#/x@%#/0seq###")) exPwd [[]] (lit ("A@%#/x@%#/"))
    (by decide) (by decide) (by decide)⟩

/-! ## The decoder loop, image by image -/

theorem decodeLoop_append (pwd : Bytes) (a b : List Mat) :
    ∀ pieces : List Bytes, Decode.decodeLoop pwd (a ++ b) pieces
      = match Decode.decodeLoop pwd a pieces with
        | .ok p => Decode.decodeLoop pwd b p
        | .fail e => .fail e := by
  induction a with
  | nil => intro pieces; rfl
  | cons m a ih =>
    intro pieces
    simp only [List.cons_append, Decode.decodeLoop]
    split
    · rfl
    · split
      · exact ih _
      · rfl

theorem processChunk_short (pwd : Bytes) (pieces : List Bytes) (chunk : Bytes)
    (h : chunk.length < 7) : Decode.processChunk pwd pieces chunk = .ok pieces := by
  unfold Decode.processChunk
  rw [parseTag_short chunk h]

/-- C13 (short-stream skip).  A readable image whose extracted stream has
fewer than 7 bytes raises no error and leaves the table as it is: the loop
over a list that holds it ends as the loop over the other images does, from
the same table; so the run ends as the loop over the other images does from
the empty table sized for the whole list. -/
theorem short_stream_skip (pwd : Bytes) (pre post : List Mat) (img : Mat)
    (pieces : List Bytes) (hne : img.empty = false)
    (hshort : (Decode.extractChunk img).length < 7) :
    Decode.processChunk pwd pieces (Decode.extractChunk img) = .ok pieces ∧
    Decode.decodeLoop pwd (pre ++ img :: post) pieces = Decode.decodeLoop pwd (pre ++ post) pieces ∧
    Decode.main (pre ++ img :: post) pwd
      = match Decode.decodeLoop pwd (pre ++ post)
          (List.replicate (pre ++ img :: post).length []) with
        | .ok pieces1 => .ok (pieces1.foldl (fun result s => result ++ s) [])
        | .fail e => .fail e := by
  have hstep := fun p => processChunk_short pwd p (Decode.extractChunk img) hshort
  have hloop : ∀ p, Decode.decodeLoop pwd (pre ++ img :: post) p
      = Decode.decodeLoop pwd (pre ++ post) p := by
    intro p
    rw [decodeLoop_append, decodeLoop_append pwd pre post]
    split
    · rw [Decode.decodeLoop, if_neg (by simp [hne]), hstep]
    · rfl
  refine ⟨hstep pieces, hloop pieces, ?_⟩
  unfold Decode.main
  rw [if_neg (by simp), hloop]

/-- C13 with the one-pixel image between the two images of the example. -/
theorem short_stream_skip_witness :
    (exPixel.empty = false ∧ (Decode.extractChunk exPixel).length < 7) ∧
    Decode.processChunk exPwd [[], [], []] (Decode.extractChunk exPixel) = .ok [[], [], []] ∧
    Decode.decodeLoop exPwd ([exDupA] ++ exPixel :: [exDupB]) [[], [], []]
      = Decode.decodeLoop exPwd ([exDupA] ++ [exDupB]) [[], [], []] ∧
    Decode.main ([exDupA] ++ exPixel :: [exDupB]) exPwd
      = match Decode.decodeLoop exPwd ([exDupA] ++ [exDupB])
          (List.replicate ([exDupA] ++ exPixel :: [exDupB]).length []) with
        | .ok pieces1 => .ok (pieces1.foldl (fun result s => result ++ s) [])
        | .fail e => .fail e :=
  ⟨by decide, short_stream_skip exPwd [exDupA] [exDupB] exPixel [[], [], []] (by decide)
    (by decide)⟩

/-- C14 (image-count limit).  With no candidate image, or more than nine, the
encoder stops with a fatal error and nothing written; with 1 to 9 images it
goes on to the password check and, the passwords agreeing, to splitting and
the encode loop; and whenever it wrote an output or completed, the count was
between 1 and 9. -/
theorem image_count_limit (P pwd pwd2 : Bytes) (images : List Mat) :
    (images.length = 0 → Encode.main P images pwd pwd2 = ⟨.noFiles, []⟩) ∧
    (9 < images.length → Encode.main P images pwd pwd2 = ⟨.tooManyFiles, []⟩) ∧
    (1 ≤ images.length → images.length ≤ 9 →
      Encode.main P images pwd pwd2
        = if pwd ≠ pwd2 then ⟨.passwordMismatch, []⟩
          else Encode.encodeLoop (Encode.splitAndTag P images.length pwd) images 0 []) ∧
    ((Encode.main P images pwd pwd2).written ≠ [] ∨
        (Encode.main P images pwd pwd2).status = .completed →
      1 ≤ images.length ∧ images.length ≤ 9) := by
  have h0 : images.length = 0 → Encode.main P images pwd pwd2 = ⟨.noFiles, []⟩ := by
    intro h
    have : images = [] := List.length_eq_zero.mp h
    subst this
    rfl
  have h9 : 9 < images.length → Encode.main P images pwd pwd2 = ⟨.tooManyFiles, []⟩ := by
    intro h
    unfold Encode.main
    rw [if_neg (by simp; intro e; rw [e] at h; simp at h), if_pos h]
  refine ⟨h0, h9, ?_, ?_⟩
  · intro h1 h2
    unfold Encode.main
    rw [if_neg (by simp; intro e; rw [e] at h1; simp at h1), if_neg (by omega)]
  · intro h
    by_contra hn
    have hc : images.length = 0 ∨ 9 < images.length := by omega
    rcases hc with hc | hc
    · rw [h0 hc] at h; simp at h
    · rw [h9 hc] at h; simp at h

/-! ## Images without sequence index 0 -/

/-- The decoder's step on a stream that is short or has a non-zero sequence
number does not look at the password. -/
theorem processChunk_nonzero (q : Bytes) (pieces : List Bytes) (chunk : Bytes)
    (h : chunk.length < 7 ∨ Decode.seqIndex chunk ≠ 0) :
    Decode.processChunk q pieces chunk
      = if chunk.length < 7 then .ok pieces
        else Decode.store pieces (Decode.seqIndex chunk) (chunk.take (chunk.length - 7)) := by
  by_cases h7 : chunk.length < 7
  · rw [if_pos h7, processChunk_short q pieces chunk h7]
  · rw [if_neg h7]
    have hs := h.resolve_left h7
    unfold Decode.processChunk
    rw [parseTag_nonzero chunk (by omega) hs]

theorem store_length (pieces pieces1 : List Bytes) (seq : Int) (content : Bytes)
    (h : Decode.store pieces seq content = .ok pieces1) : pieces1.length = pieces.length := by
  unfold Decode.store at h
  split at h
  · injection h with h
    rw [← h, List.length_set]
  · cases h

theorem decodeLoop_nonzero (N : Nat) (l : List Mat)
    (hall : ∀ m ∈ l, m.empty = false ∧ ((Decode.extractChunk m).length < 7 ∨
      (1 ≤ Decode.seqIndex (Decode.extractChunk m) ∧
        Decode.seqIndex (Decode.extractChunk m) < N))) :
    ∀ pieces : List Bytes, pieces.length = N →
      ∃ pieces', pieces'.length = N ∧ ∀ q, Decode.decodeLoop q l pieces = .ok pieces' := by
  induction l with
  | nil => intro pieces hlen; exact ⟨pieces, hlen, fun q => rfl⟩
  | cons m rest ih =>
    intro pieces hlen
    obtain ⟨hne, hm⟩ := hall m (by simp)
    have hnz : (Decode.extractChunk m).length < 7 ∨ Decode.seqIndex (Decode.extractChunk m) ≠ 0 := by
      rcases hm with h | ⟨h, _⟩
      · exact Or.inl h
      · exact Or.inr (by omega)
    have hstep : ∃ pieces1, pieces1.length = N ∧
        ∀ q, Decode.processChunk q pieces (Decode.extractChunk m) = .ok pieces1 := by
      by_cases h7 : (Decode.extractChunk m).length < 7
      · exact ⟨pieces, hlen, fun q => by rw [processChunk_nonzero q pieces _ hnz, if_pos h7]⟩
      · obtain ⟨h1, h2⟩ := hm.resolve_left h7
        refine ⟨pieces.set (Decode.seqIndex (Decode.extractChunk m)).toNat
          ((Decode.extractChunk m).take ((Decode.extractChunk m).length - 7)),
          by simpa using hlen, fun q => ?_⟩
        rw [processChunk_nonzero q pieces _ hnz, if_neg h7]
        unfold Decode.store
        rw [if_pos ⟨by omega, by omega⟩]
    obtain ⟨pieces1, hlen1, hp⟩ := hstep
    obtain ⟨pieces', hlen', hrun⟩ := ih (fun m' hm' => hall m' (by simp [hm'])) pieces1 hlen1
    refine ⟨pieces', hlen', fun q => ?_⟩
    rw [Decode.decodeLoop, if_neg (by simp [hne]), hp q]
    exact hrun q

/-- C19 (no password check without chunk 0).  For a non-empty list of
readable images each of which has a stream that is too short to be parsed or
a sequence index in `1 .. N - 1`, `N` being the number of images, the
decoder succeeds with one and the same output for every entered password;
and the step for one image gives the same result for any two passwords
whenever the stream is short or its sequence index is not 0. -/
theorem no_chunk_zero (l : List Mat) (hl : l ≠ [])
    (hall : ∀ m ∈ l, m.empty = false ∧ ((Decode.extractChunk m).length < 7 ∨
      (1 ≤ Decode.seqIndex (Decode.extractChunk m) ∧
        Decode.seqIndex (Decode.extractChunk m) < l.length))) :
    (∃ out, ∀ q, Decode.main l q = .ok out) ∧
    (∀ (q q' : Bytes) (pieces : List Bytes) (chunk : Bytes),
      chunk.length < 7 ∨ Decode.seqIndex chunk ≠ 0 →
      Decode.processChunk q pieces chunk = Decode.processChunk q' pieces chunk) := by
  constructor
  · obtain ⟨pieces', _, hrun⟩ :=
      decodeLoop_nonzero l.length l hall (List.replicate l.length []) (by simp)
    refine ⟨pieces'.foldl (fun result s => result ++ s) [], fun q => ?_⟩
    unfold Decode.main
    rw [if_neg (by simpa using hl), hrun q]
  · intro q q' pieces chunk h
    rw [processChunk_nonzero q pieces chunk h, processChunk_nonzero q' pieces chunk h]

set_option maxRecDepth 100000 in
/-- C19 on an image with the stream `"WORLD1seq###"` and a one-pixel image. -/
theorem no_chunk_zero_witness :
    (exNoZero ≠ [] ∧
      ∀ m ∈ exNoZero, m.empty = false ∧ ((Decode.extractChunk m).length < 7 ∨
        (1 ≤ Decode.seqIndex (Decode.extractChunk m) ∧
          Decode.seqIndex (Decode.extractChunk m) < exNoZero.length))) ∧
    (∃ out, ∀ q, Decode.main exNoZero q = .ok out) ∧
    (∀ (q q' : Bytes) (pieces : List Bytes) (chunk : Bytes),
      chunk.length < 7 ∨ Decode.seqIndex chunk ≠ 0 →
      Decode.processChunk q pieces chunk = Decode.processChunk q' pieces chunk) :=
  ⟨by decide, no_chunk_zero exNoZero (by decide) (by decide)⟩

/-! ## Several images with the same sequence index -/

/-- Images whose sequence index is not `i` leave slot `i` as it is. -/
theorem decodeLoop_keeps (pwd : Bytes) (i : Nat) (post : List Mat)
    (hpost : ∀ m ∈ post, (Decode.extractChunk m).length < 7 ∨
      Decode.seqIndex (Decode.extractChunk m) ≠ (i : Int)) :
    ∀ pieces pieces' : List Bytes, Decode.decodeLoop pwd post pieces = .ok pieces' →
      pieces'.length = pieces.length ∧ pieces'.getD i [] = pieces.getD i [] := by
  induction post with
  | nil =>
    intro pieces pieces' h
    injection h with h
    subst h
    exact ⟨rfl, rfl⟩
  | cons m rest ih =>
    intro pieces pieces' h
    rw [Decode.decodeLoop] at h
    split at h
    · cases h
    · split at h
      · rename_i pieces1 hstep
        obtain ⟨hlen, hget⟩ := ih (fun m' hm' => hpost m' (by simp [hm'])) pieces1 pieces' h
        rcases processChunk_ok pwd _ _ _ hstep with ⟨_, rfl⟩ | ⟨h7, j, pw, content, hp, hj, rfl⟩
        · exact ⟨hlen, hget⟩
        · have hseq := (parseTag_chunk _ _ _ _ hp).2.1
          have hne : j ≠ i := by
            rintro rfl
            rcases hpost m (by simp) with hs | hs
            · omega
            · exact hs hseq.symm
          rw [List.length_set] at hlen
          rw [getD_set _ _ _ _ hj, if_neg hne] at hget
          exact ⟨hlen, hget⟩
      · cases h

set_option maxRecDepth 100000 in
/-- C20 (duplicate sequence index).  In a run of the loop that succeeds, if
image `m` carries sequence index `i` with content `content` and no image
enumerated after it carries index `i`, then slot `i` of the final table holds
`content`, whatever images carrying index `i` came before: each store
overwrites the previous one.  Two images with the streams `"A1seq###"` and
`"B1seq###"` decode without error to `"B"` in one order and to `"A"` in the
other. -/
theorem duplicate_index (pwd : Bytes) (pre post : List Mat) (m : Mat)
    (pieces pieces' : List Bytes) (i : Nat) (pw : Option Bytes) (content : Bytes)
    (hrun : Decode.decodeLoop pwd (pre ++ m :: post) pieces = .ok pieces')
    (hm : Decode.parseTag (Decode.extractChunk m) = .chunk (i : Int) pw content)
    (hlast : ∀ m' ∈ post, (Decode.extractChunk m').length < 7 ∨
      Decode.seqIndex (Decode.extractChunk m') ≠ (i : Int)) :
    (i < pieces'.length ∧ pieces'.getD i [] = content) ∧
    (Decode.main [exDupA, exDupB] exPwd = .ok (lit ("B")) ∧
      Decode.main [exDupB, exDupA] exPwd = .ok (lit ("A"))) := by
  refine ⟨?_, by decide⟩
  rw [decodeLoop_append] at hrun
  split at hrun
  · rename_i p1 hpre
    rw [Decode.decodeLoop] at hrun
    split at hrun
    · cases hrun
    · split at hrun
      · rename_i p2 hstep
        obtain ⟨hlen, hget⟩ := decodeLoop_keeps pwd i post hlast p2 pieces' hrun
        rcases processChunk_ok pwd _ _ _ hstep with ⟨h7, _⟩ | ⟨_, j, pw', content', hp, hj, rfl⟩
        · have := (parseTag_chunk _ _ _ _ hm).1
          omega
        · rw [hm] at hp
          injection hp with h1 h2 h3
          have hij : i = j := Int.ofNat.inj h1
          subst hij h3
          rw [List.length_set] at hlen
          rw [getD_set _ _ _ _ hj, if_pos rfl] at hget
          exact ⟨by omega, hget⟩
      · cases hrun
  · cases hrun

set_option maxRecDepth 100000 in
/-- C20 with `"A1seq###"` enumerated first and `"B1seq###"` last. -/
theorem duplicate_index_witness :
    (Decode.decodeLoop exPwd ([exDupA] ++ exDupB :: []) [[], []] = .ok [[], lit ("B")] ∧
      Decode.parseTag (Decode.extractChunk exDupB) = .chunk ((1 : Nat) : Int) none (lit ("B")) ∧
      ∀ m' ∈ ([] : List Mat), (Decode.extractChunk m').length < 7 ∨
        Decode.seqIndex (Decode.extractChunk m') ≠ ((1 : Nat) : Int)) ∧
    (1 < [[], lit ("B")].length ∧ ([[], lit ("B")] : List Bytes).getD 1 [] = lit ("B")) ∧
    (Decode.main [exDupA, exDupB] exPwd = .ok (lit ("B")) ∧
      Decode.main [exDupB, exDupA] exPwd = .ok (lit ("A"))) :=
  ⟨by decide, duplicate_index exPwd [exDupA] [] exDupB [[], []] [[], lit ("B")] 1 none
    (lit ("B")) (by decide) (by decide) (by decide)⟩

end Stego
